import Mathlib

/-!
# Mython lexer and runtime: a shallow embedding

The first part embeds `src/src/lexer.cpp` (namespace `parse`), the second
`src/src/runtime.cpp` (namespace `runtime`).

## Conventions of the lexer model

* The character stream `input_` is the list of the bytes that are still
  unread; every byte is written as the `Char` with that code.
* `std::istream::peek` and `get` give `none` for `Traits::eof()`.  Once the
  stream is exhausted every later `peek`/`get` gives `eof` again, so the
  `eofbit`/`failbit` flags carry no information beyond `input_ = []`; the
  test `!input_` of line 139 can only succeed when `peek` gave `eof`.
* `char c = input_.peek()` narrows `eof` (-1) to the `char` with bit pattern
  `0xFF` (`EOFc`); on the target `char` is signed, so `c == -1` holds exactly
  for that pattern.
* In `LoadToken` the local `c` holds `(char)input_.peek()` for the current
  stream position at every place where it is tested (it is re-assigned from
  `peek` after every loop that consumes), so the model reads it from the
  stream.
* `dent_` and `dent_buf_` are integers (`Int`); `int` arithmetic of the number
  branch wraps to 32 bits.

## Conventions of the runtime model

* An `ObjectHolder` is `Option Object`: `none` is the empty holder, `some o`
  holds the object `o`; an instance is given by its class and its fields.
* The bodies of methods belong to the syntax tree, which is outside
  runtime.cpp: a `Method` carries a handle of its body, and every function that
  reaches `Execute` takes the behaviour of the bodies as the parameter `exec`.
* Whatever a body can change (the `Context` with its output stream, the objects
  it reaches) is a world `W`, passed in and out; the runtime functions of this
  file change it only through `exec`.
* A call ends with a value, with a thrown `std::runtime_error` (its message),
  or, where the code dereferences a null pointer, as `undefined`.
-/

namespace parse

/-! ## Tokens -/

/-- Modelled from the spec: the `Token` variant of lexer.h, which is not among
the sources; the alternatives are those that lexer.cpp prints (lines 44-73):
value-bearing tokens, keywords, two-character operators and the structural
tokens.  `Number` carries the `int` computed at lines 287-291. -/
inductive Token where
  | Number (value : Int)
  | Id (value : List Char)
  | Char (value : Char)
  | String (value : List Char)
  | Class
  | Return
  | If
  | Else
  | Def
  | Newline
  | Print
  | Indent
  | Dedent
  | And
  | Or
  | Not
  | Eq
  | NotEq
  | LessOrEq
  | GreaterOrEq
  | None
  | True
  | False
  | Eof
  deriving DecidableEq, Repr

/-! ## Characters and the stream -/

/-- The `char` obtained by narrowing `Traits::eof()` (-1): bit pattern 0xFF. -/
def EOFc : Char := Char.ofNat 255

/-- The double quote character. -/
def DQUOTE : Char := Char.ofNat 34

/-- The single quote character. -/
def SQUOTE : Char := Char.ofNat 39

/-- The backslash character. -/
def BACKSLASH : Char := Char.ofNat 92

/-- `isdigit` of `<cctype>` in the "C" locale. -/
def isdigit (c : Char) : Bool := 48 ≤ c.toNat && c.toNat ≤ 57

/-- `isalpha` of `<cctype>` in the "C" locale. -/
def isalpha (c : Char) : Bool :=
  (65 ≤ c.toNat && c.toNat ≤ 90) || (97 ≤ c.toNat && c.toNat ≤ 122)

/-- `isalnum` of `<cctype>` in the "C" locale. -/
def isalnum (c : Char) : Bool := isalpha c || isdigit c

/-- `ispunct` of `<cctype>` in the "C" locale (false for every byte above 126,
in particular for `EOFc`). -/
def ispunct (c : Char) : Bool :=
  (33 ≤ c.toNat && c.toNat ≤ 47) || (58 ≤ c.toNat && c.toNat ≤ 64) ||
  (91 ≤ c.toNat && c.toNat ≤ 96) || (123 ≤ c.toNat && c.toNat ≤ 126)

/-- `input_.peek()`: the next byte, `none` for `eof`. -/
def peek (input : List Char) : Option Char := input.head?

/-- `input_.get()`: the byte read (`none` for `eof`) and the stream after it. -/
def get (input : List Char) : Option Char × List Char := (input.head?, input.tail)

/-- Narrowing of the `int` result of `peek`/`get` to `char`. -/
def toChar : Option Char → Char
  | some c => c
  | none => EOFc

/-- The `int` result of `peek`/`get`: the byte value, -1 for `eof`. -/
def toInt : Option Char → Int
  | some c => (c.toNat : Int)
  | none => -1

/-- The loop `do { input_.get(); } while ((c = input_.peek()) == ch);`:
the stream after it. -/
def skipRun (ch : Char) (input : List Char) : List Char :=
  (get input).2.dropWhile (fun c => c == ch)

/-- `GetLine(input_)` (lines 99-103) as used by `LoadToken`: the stream after
`getline`, which extracts through the first line feed or to the end.  The
string it returns is discarded by both callers. -/
def GetLine (input : List Char) : List Char :=
  (input.dropWhile (fun c => c != '\n')).tail

/-- The `switch` of lines 111-125: the character pushed for the character
that follows a backslash. -/
def unescape (c : Char) : Char :=
  if c = 't' then '\t'
  else if c = BACKSLASH then BACKSLASH
  else if c = 'n' then '\n'
  else c

/-- `ParseString(input, delim)` (lines 105-135), started with `s` as the
string built so far: the string returned and the stream after the call.
When `get` meets the end of the stream it returns `eof`, which is narrowed to
`EOFc` and pushed like any other character before the loop test `while (input)`
fails. -/
def ParseString : List Char → Char → List Char → List Char × List Char
  | [], _, s => (s ++ [EOFc], [])
  | [c], delim, s =>
    if c = BACKSLASH then (s ++ [unescape EOFc], [])
    else if c = delim then (s, [])
    else (s ++ [c] ++ [EOFc], [])
  | c :: e :: rest, delim, s =>
    if c = BACKSLASH then ParseString rest delim (s ++ [unescape e])
    else if c = delim then (s, e :: rest)
    else ParseString (e :: rest) delim (s ++ [c])

/-- Two's complement wrap-around of a 32 bit `int`. -/
def wrapInt (x : Int) : Int := (x + 2147483648) % 4294967296 - 2147483648

/-- The loop of lines 288-290: `i` is the value so far. -/
def readDigits : Int → List Char → Int × List Char
  | i, [] => (i, [])
  | i, c :: rest =>
    if isdigit c then readDigits (wrapInt (i * 10 + (toInt (some c) - 48))) rest
    else (i, c :: rest)

/-- The chain of comparisons of lines 248-284 on the identifier text `s`. -/
def wordToken (s : List Char) : Token :=
  if s = "class".toList then Token.Class
  else if s = "def".toList then Token.Def
  else if s = "print".toList then Token.Print
  else if s = "return".toList then Token.Return
  else if s = "if".toList then Token.If
  else if s = "else".toList then Token.Else
  else if s = "or".toList then Token.Or
  else if s = "and".toList then Token.And
  else if s = "not".toList then Token.Not
  else if s = "None".toList then Token.None
  else if s = "True".toList then Token.True
  else if s = "False".toList then Token.False
  else Token.Id s

/-! ## The lexer -/

/-- Modelled from the spec: the data members of `Lexer` (declared in lexer.h,
which is not among the sources): the stream, the current token, the pending
indentation depth and the dedent buffer. -/
structure Lexer where
  input_ : List Char
  current_token_ : Token
  dent_ : Int
  dent_buf_ : Int
  deriving DecidableEq, Repr

/-- How a pass through the body of `LoadToken` ends: with `return { token }`,
or with the tail call `return LoadToken();` of lines 171 and 210. -/
inductive Outcome where
  | ret (t : Token) (lx : Lexer)
  | again (lx : Lexer)
  deriving DecidableEq, Repr

/-- Lines 195-199 of `LoadToken`: skip a run of spaces. -/
def skipSpaces (lx : Lexer) : Lexer :=
  if toChar (peek lx.input_) = ' ' then { lx with input_ := skipRun ' ' lx.input_ } else lx

/-- Lines 201-239 of `LoadToken`: the lookahead is punctuation other than
`_`; it is read by `c = input_.get()` and dispatched by the `switch`. -/
def punctStage (lx0 : Lexer) : Outcome :=
  let c := toChar (get lx0.input_).1
  let lx : Lexer := { lx0 with input_ := (get lx0.input_).2 }
  if c = DQUOTE then
    .ret (Token.String (ParseString lx.input_ DQUOTE []).1)
      { lx with input_ := (ParseString lx.input_ DQUOTE []).2 }
  else if c = SQUOTE then
    .ret (Token.String (ParseString lx.input_ SQUOTE []).1)
      { lx with input_ := (ParseString lx.input_ SQUOTE []).2 }
  else if c = '#' then
    if lx.current_token_ ≠ Token.Newline then
      .ret Token.Newline { lx with input_ := GetLine lx.input_ }
    else .again { lx with input_ := GetLine lx.input_ }
  else if c = '=' then
    if peek lx.input_ ≠ some '=' then .ret (Token.Char '=') lx
    else .ret Token.Eq { lx with input_ := (get lx.input_).2 }
  else if c = '!' then
    if peek lx.input_ = some '=' then .ret Token.NotEq { lx with input_ := (get lx.input_).2 }
    else .ret (Token.Char '!') lx
  else if c = '<' then
    if peek lx.input_ = some '=' then .ret Token.LessOrEq { lx with input_ := (get lx.input_).2 }
    else .ret (Token.Char '<') lx
  else if c = '>' then
    if peek lx.input_ = some '=' then
      .ret Token.GreaterOrEq { lx with input_ := (get lx.input_).2 }
    else .ret (Token.Char '>') lx
  else .ret (Token.Char c) lx

/-- Lines 243-284 of `LoadToken`: the loop pushes the longest run of
characters that are `isalnum` or `_`; the text read selects the token. -/
def wordStage (lx : Lexer) : Outcome :=
  .ret (wordToken (lx.input_.takeWhile (fun c => isalnum c || c == '_')))
    { lx with input_ := lx.input_.dropWhile (fun c => isalnum c || c == '_') }

/-- Lines 287-291 of `LoadToken`: the first digit is read by `get`, the
following ones by the loop. -/
def numberStage (lx : Lexer) : Outcome :=
  .ret (Token.Number (readDigits (toInt (get lx.input_).1 - 48) (get lx.input_).2).1)
    { lx with input_ := (readDigits (toInt (get lx.input_).1 - 48) (get lx.input_).2).2 }

/-- Lines 195-293 of `LoadToken`: skip spaces, then lex one ordinary token. -/
def tokenStage (lx0 : Lexer) : Outcome :=
  let lx := skipSpaces lx0
  let c := toChar (peek lx.input_)
  if ispunct c && c != '_' then punctStage lx
  else if isalpha c || c == '_' then wordStage lx
  else if isdigit c then numberStage lx
  else .ret Token.Eof lx

/-- Lines 189-194 of `LoadToken`, followed by the rest of the function. -/
def dedentStage (lx : Lexer) : Outcome :=
  if lx.current_token_ = Token.Dedent ∧ lx.dent_buf_ < lx.dent_ then
    .ret Token.Dedent { lx with dent_ := lx.dent_ - 1 }
  else tokenStage lx

/-- Lines 162-188 of `LoadToken`, followed by the rest of the function. -/
def indentStage (lx0 : Lexer) : Outcome :=
  if lx0.current_token_ = Token.Newline then
    if toChar (peek lx0.input_) = ' ' then
      -- lines 164-168
      let space_counter : Int := 1 + ((get lx0.input_).2.takeWhile (fun c => c == ' ')).length
      let lx : Lexer := { lx0 with input_ := skipRun ' ' lx0.input_ }
      let c := toChar (peek lx.input_)
      if c = '#' ∨ c = '\n' then .again { lx with input_ := GetLine lx.input_ }
      else if space_counter / 2 = lx.dent_ + 1 then
        .ret Token.Indent { lx with dent_ := lx.dent_ + 1 }
      else if space_counter / 2 < lx.dent_ then
        .ret Token.Dedent { lx with dent_ := lx.dent_ - 1, dent_buf_ := space_counter / 2 }
      else dedentStage lx
    else if lx0.dent_ > 0 then
      .ret Token.Dedent { lx0 with dent_ := lx0.dent_ - 1, dent_buf_ := 0 }
    else dedentStage lx0
  else dedentStage lx0

/-- The body of `Lexer::LoadToken` (lines 137-294), one pass. -/
def LoadTokenBody (lx : Lexer) : Outcome :=
  if toChar (peek lx.input_) = EOFc then
    -- lines 139-150
    if lx.dent_ > 0 then
      .ret Token.Dedent { lx with dent_ := lx.dent_ - 1, dent_buf_ := 0 }
    else if lx.current_token_ = Token.Newline ∨ lx.current_token_ = Token.Eof ∨
        lx.current_token_ = Token.Dedent then
      .ret Token.Eof lx
    else .ret Token.Newline lx
  else if toChar (peek lx.input_) = '\n' then
    -- lines 151-161
    if lx.current_token_ = Token.Newline then
      indentStage { lx with input_ := skipRun '\n' lx.input_ }
    else .ret Token.Newline { lx with input_ := (get lx.input_).2 }
  else indentStage lx

/-- `Lexer::LoadToken` (lines 137-294).  The result is the token returned and
the lexer after the call (`current_token_` is not assigned by `LoadToken`).
The function calls itself after skipping a blank or comment line; `fuel`
bounds the depth of these calls and `none` means that it ran out. -/
def LoadTokenFuel : Nat → Lexer → Option (Token × Lexer)
  | 0, _ => none
  | fuel + 1, lx =>
    match LoadTokenBody lx with
    | .ret t lx1 => some (t, lx1)
    | .again lx1 => LoadTokenFuel fuel lx1

/-- `Lexer::LoadToken` with enough fuel for every input (each nested call
starts after at least one more consumed character; see
`LoadTokenFuel_isSome`). -/
def LoadToken (lx : Lexer) : Token × Lexer :=
  (LoadTokenFuel (lx.input_.length + 1) lx).getD (Token.Eof, lx)

/-- `Lexer::NextToken` (lines 94-97): the lexer after the call; the token
returned is its `current_token_`. -/
def NextToken (lx : Lexer) : Lexer :=
  { (LoadToken lx).2 with current_token_ := (LoadToken lx).1 }

/-- Modelled from the spec: the member initialiser of `dent_` in lexer.h (not
among the sources): no indentation is pending at the start. -/
def dent_init : Int := 0

/-- Modelled from the spec: the member initialiser of `dent_buf_` in lexer.h
(not among the sources): the dedent buffer starts at 0. -/
def dent_buf_init : Int := 0

/-- The lexer in the constructor (lines 84-88) before its call of `LoadToken`:
`current_token_` is initialised with `Newline`. -/
def initial (input : List Char) : Lexer :=
  { input_ := input, current_token_ := Token.Newline, dent_ := dent_init,
    dent_buf_ := dent_buf_init }

/-- The tokens of the next `n` loads: from `initial input` these are the token
pre-loaded by the constructor followed by the results of `NextToken`. -/
def emit : Nat → Lexer → List Token
  | 0, _ => []
  | n + 1, lx => (NextToken lx).current_token_ :: emit n (NextToken lx)

/-- The lexer after `n` loads. -/
def advance : Nat → Lexer → Lexer
  | 0, lx => lx
  | n + 1, lx => advance n (NextToken lx)

/-- The first `n` tokens produced by the lexer on `input`. -/
def tokens (input : List Char) (n : Nat) : List Token := emit n (initial input)

/-! ## Predicates used by the statements -/

/-- The structural tokens whose emission `LoadToken` guards. -/
def Token.structural : Token → Bool
  | .Indent => true
  | .Dedent => true
  | .Newline => true
  | _ => false

/-- What one pass through the body of `LoadToken` may do to the state. -/
def Outcome.Good (lx : Lexer) : Outcome → Prop
  | .ret t lx1 =>
    lx1.current_token_ = lx.current_token_ ∧
    (0 ≤ lx.dent_buf_ → 0 ≤ lx1.dent_buf_) ∧
    (t = Token.Indent → lx1.dent_ = lx.dent_ + 1) ∧
    (t = Token.Dedent → lx1.dent_ = lx.dent_ - 1 ∧ (0 ≤ lx.dent_buf_ → 0 < lx.dent_)) ∧
    (t ≠ Token.Indent → t ≠ Token.Dedent → lx1.dent_ = lx.dent_) ∧
    (t = Token.Newline → lx.current_token_ ≠ Token.Newline)
  | .again lx1 =>
    lx1.current_token_ = lx.current_token_ ∧ lx1.dent_ = lx.dent_ ∧
    lx1.dent_buf_ = lx.dent_buf_ ∧ lx1.input_.length < lx.input_.length

/-- The number of `Dedent` tokens that `LoadToken` returns before it reaches
line 195 when the lookahead starts an ordinary token: after a `Newline` the
implicit dedent of lines 183-187 and the dedent buffer close every open level,
after a `Dedent` the buffer closes the levels above `dent_buf_`. -/
def pendingDedents (lx : Lexer) : Nat :=
  if lx.current_token_ = Token.Newline then lx.dent_.toNat
  else if lx.current_token_ = Token.Dedent then (lx.dent_ - lx.dent_buf_).toNat
  else 0

/-- The keyword spellings as the specification lists them, each with its
token. -/
def specKeywords : List (List Char × Token) :=
  [("class".toList, Token.Class), ("def".toList, Token.Def), ("print".toList, Token.Print),
   ("return".toList, Token.Return), ("if".toList, Token.If), ("else".toList, Token.Else),
   ("or".toList, Token.Or), ("and".toList, Token.And), ("not".toList, Token.Not),
   ("None".toList, Token.None), ("True".toList, Token.True), ("False".toList, Token.False)]

/-- The characters of an identifier after its first one: letters, digits
and `_`. -/
def identChar (c : Char) : Bool := isalnum c || c == '_'

/-- The escapes as the specification lists them: `\t` gives TAB, `\n` gives
LF, `\\` gives the backslash, any other `\x` gives `x`. -/
def specUnescape (x : Char) : Char :=
  if x = 't' then '\t'
  else if x = 'n' then '\n'
  else if x = BACKSLASH then BACKSLASH
  else x

/-- The text of a string literal's body with its escapes decoded, following
the specification. -/
def specDecode : List Char → List Char
  | [] => []
  | [c] => [c]
  | c :: e :: rest =>
    if c = BACKSLASH then specUnescape e :: specDecode rest else c :: specDecode (e :: rest)

/-- A body that can stand between an opening quote `q` and its closing quote:
it has no unescaped `q` and does not end in the middle of an escape, so the
first unescaped `q` after it is the closing one. -/
def closedBody (q : Char) : List Char → Bool
  | [] => true
  | [c] => c != BACKSLASH && c != q
  | c :: e :: rest =>
    if c = BACKSLASH then closedBody q rest else c != q && closedBody q (e :: rest)

/-- The source text of a payload: every backslash is doubled and every `q` is
prefixed with a backslash. -/
def escape (q : Char) : List Char → List Char
  | [] => []
  | c :: rest =>
    if c = BACKSLASH ∨ c = q then BACKSLASH :: c :: escape q rest else c :: escape q rest

/-- One step of reading a decimal numeral: the value so far times ten plus
the value of the digit `c`. -/
def decStep (v : Nat) (c : Char) : Nat := 10 * v + (c.toNat - 48)

/-- The non-negative integer that a run of decimal digits denotes in base 10,
as the specification has it. -/
def decimalValue (ds : List Char) : Nat := ds.foldl decStep 0

end parse

namespace runtime

/-! ## Values of the runtime -/

/-- Modelled from the spec: `Method` of runtime.h (not among the sources): a
name, the formal parameter names and the executable body, kept as a handle. -/
structure Method where
  name : String
  formal_params : List String
  body : Nat

/-- Modelled from the spec: the data members of `Class` set by the constructor
of lines 110-111: name, methods in declaration order, optional parent. -/
inductive Class where
  | mk (name_cl_ : String) (cl_methods_ : List Method) (cl_parent_ : Option Class)

/-- Modelled from the spec: the objects that an `ObjectHolder` can hold, which
are the targets of `TryAs` in runtime.cpp: `Number` (`ValueObject<int>`),
`String`, `Bool`, `Class`, and `ClassInstance` with its class and its
fields. -/
inductive Object where
  | Number (value : Int)
  | String (value : String)
  | Bool (value : Bool)
  | Class (cls : Class)
  | ClassInstance (inst_class_ : Class) (inst_fields_ : List (String × Option Object))

/-- `ObjectHolder`: `none` is the empty holder (`ObjectHolder::None()`), for
which `operator bool` is false. -/
abbrev ObjectHolder := Option Object

/-- `IsTrue` (lines 46-59).  `return num->GetValue();` converts the `int` to
`bool`. -/
def IsTrue (value : ObjectHolder) : Bool :=
  match value with
  | some (Object.Number num) => num != 0
  | some (Object.String str) => !str.isEmpty
  | some (Object.Bool b) => b
  | _ => false

/-! ## Method resolution and calls -/

/-- Modelled from the spec: `Closure` of runtime.h (not among the sources),
the map from names to holders, as an association list with at most one entry
per name. -/
abbrev Closure := List (String × ObjectHolder)

/-- `closure[key] = value` on the map: the entry of `key` is replaced, or
added when there is none. -/
def Closure.set : Closure → String → ObjectHolder → Closure
  | [], key, value => [(key, value)]
  | (k, v) :: rest, key, value =>
    if k = key then (k, value) :: rest else (k, v) :: Closure.set rest key value

/-- The holder bound to `key`, if any. -/
def Closure.get (c : Closure) (key : String) : Option ObjectHolder := c.lookup key

/-- How a call of the runtime ends: it returns `v`, it throws a
`std::runtime_error` with message `what`, or its behaviour is undefined (a null
pointer is dereferenced). -/
inductive Result (α : Type) where
  | ret (v : α)
  | throw (what : String)
  | undefined
  deriving DecidableEq, Repr

/-- The behaviour of `Executable::Execute(closure, context)` for the method
bodies, which belong to the syntax tree and are a parameter here: the body
with the given handle, run on a closure in the world `w` (the `Context` and
whatever else the body can reach), ends with a result and a new world. -/
abbrev Executor (W : Type) := Nat → Closure → W → Result ObjectHolder × W

/-- `Class::GetMethod` (lines 118-128): `std::find` with `operator==(Method,
string)` of lines 113-115 gives the first method of the class with that name;
on a miss the parent is asked. -/
def Class.GetMethod : Class → String → Option Method
  | .mk _ cl_methods_ cl_parent_, name =>
    match cl_methods_.find? (fun method => method.name == name) with
    | some m => some m
    | none =>
      match cl_parent_ with
      | some parent => Class.GetMethod parent name
      | none => none

/-- `ClassInstance::HasMethod` (lines 74-80) for an instance of `inst_class_`. -/
def HasMethod (inst_class_ : Class) (method : String) (argument_count : Nat) : Bool :=
  match inst_class_.GetMethod method with
  | some met => met.formal_params.length == argument_count
  | none => false

/-- The loop of lines 100-102: `closure[params[i]] = actual_args[i]`. -/
def bindParams : List String → List ObjectHolder → Closure → Closure
  | p :: params, a :: actual_args, closure => bindParams params actual_args (closure.set p a)
  | _, _, closure => closure

/-- `ClassInstance::Call` (lines 92-108) on the instance with class
`inst_class_` and fields `inst_fields_`; `ObjectHolder::Share(*this)` is the
holder of that instance. -/
def Call {W : Type} (exec : Executor W) (inst_class_ : Class) (inst_fields_ : Closure)
    (method : String) (actual_args : List ObjectHolder) (context : W) :
    Result ObjectHolder × W :=
  if HasMethod inst_class_ method actual_args.length then
    match inst_class_.GetMethod method with
    | some m =>
      exec m.body
        (bindParams m.formal_params actual_args
          [("self", some (Object.ClassInstance inst_class_ inst_fields_))])
        context
    | none => (Result.undefined, context)
  else (Result.throw ("Cannot call " ++ method), context)

/-- `ClassInstance::Print` (lines 61-72) up to the call of `Print` on the
holder that the body of `__str__` returns: `some` of the outcome of that body,
or `none` when the address of the instance is written instead. -/
def Print {W : Type} (exec : Executor W) (inst_class_ : Class) (inst_fields_ : Closure)
    (context : W) : Option (Result ObjectHolder × W) :=
  if HasMethod inst_class_ "__str__" 0 then
    match inst_class_.GetMethod "__str__" with
    | some m =>
      some (exec m.body [("self", some (Object.ClassInstance inst_class_ inst_fields_))]
        context)
    | none => some (Result.undefined, context)
  else none

/-! ## Comparisons -/

/-- `result.TryAs<ValueObject<bool>>()->GetValue()` (lines 155, 163, 191,
199): the payload of a `Bool`; for any other holder `TryAs` gives a null
pointer, which is dereferenced. -/
def boolPayload : Result ObjectHolder → Result Bool
  | .ret (some (Object.Bool b)) => .ret b
  | .ret _ => .undefined
  | .throw what => .throw what
  | .undefined => .undefined

/-- Modelled from the spec: `operator==` on two `String` objects, declared in
runtime.h (not among the sources): equality of the payloads. -/
def stringEq (a b : String) : Bool := a == b

/-- Modelled from the spec: `operator==` on two `Number` objects, declared in
runtime.h (not among the sources): equality of the payloads. -/
def numberEq (a b : Int) : Bool := a == b

/-- Modelled from the spec: `operator==` on two `Bool` objects, declared in
runtime.h (not among the sources): equality of the payloads. -/
def boolEq (a b : Bool) : Bool := a == b

/-- Modelled from the spec: `operator<` on two `String` objects, declared in
runtime.h (not among the sources): the payloads in lexicographic order. -/
def stringLt (a b : String) : Bool := decide (a < b)

/-- Modelled from the spec: `operator<` on two `Number` objects, declared in
runtime.h (not among the sources): the payloads in integer order. -/
def numberLt (a b : Int) : Bool := decide (a < b)

/-- Modelled from the spec: `operator<` on two `Bool` objects, declared in
runtime.h (not among the sources): `false < true`. -/
def boolLt (a b : Bool) : Bool := !a && b

/-- `Equal` (lines 143-182). -/
def Equal {W : Type} (exec : Executor W) (lhs rhs : ObjectHolder) (context : W) :
    Result Bool × W :=
  match lhs, rhs with
  | none, none => (.ret true, context)
  | none, some _ => (.throw "Cannot compare objects for equality in general", context)
  | some _, none => (.throw "Cannot compare objects for equality with None", context)
  | some (Object.ClassInstance inst_class_ inst_fields_), some r =>
    if HasMethod inst_class_ "__eq__" 1 then
      (boolPayload (Call exec inst_class_ inst_fields_ "__eq__" [some r] context).1,
        (Call exec inst_class_ inst_fields_ "__eq__" [some r] context).2)
    else (.throw "Cannot compare objects for equality in general", context)
  | some (Object.Class v), some r =>
    match v.GetMethod "__eq__" with
    | some m =>
      (boolPayload (exec m.body [("__eq__", some r)] context).1,
        (exec m.body [("__eq__", some r)] context).2)
    | none => (.throw "Cannot compare objects for equality in general", context)
  | some (Object.String a), some (Object.String b) => (.ret (stringEq a b), context)
  | some (Object.Number a), some (Object.Number b) => (.ret (numberEq a b), context)
  | some (Object.Bool a), some (Object.Bool b) => (.ret (boolEq a b), context)
  | some _, some _ => (.throw "Cannot compare objects for equality in general", context)

/-- `Less` (lines 184-218). -/
def Less {W : Type} (exec : Executor W) (lhs rhs : ObjectHolder) (context : W) :
    Result Bool × W :=
  match lhs, rhs with
  | none, _ => (.throw "Cannot compare objects for less", context)
  | some _, none => (.throw "Cannot compare objects for less", context)
  | some (Object.ClassInstance inst_class_ inst_fields_), some r =>
    if HasMethod inst_class_ "__lt__" 1 then
      (boolPayload (Call exec inst_class_ inst_fields_ "__lt__" [some r] context).1,
        (Call exec inst_class_ inst_fields_ "__lt__" [some r] context).2)
    else (.throw "Cannot compare objects for less", context)
  | some (Object.Class v), some r =>
    match v.GetMethod "__lt__" with
    | some m =>
      (boolPayload (exec m.body [("__lt__", some r)] context).1,
        (exec m.body [("__lt__", some r)] context).2)
    | none => (.throw "Cannot compare objects for less", context)
  | some (Object.String a), some (Object.String b) => (.ret (stringLt a b), context)
  | some (Object.Number a), some (Object.Number b) => (.ret (numberLt a b), context)
  | some (Object.Bool a), some (Object.Bool b) => (.ret (boolLt a b), context)
  | some _, some _ => (.throw "Cannot compare objects for less", context)

/-- `NotEqual` (lines 220-227): `!Equal`, every exception replaced. -/
def NotEqual {W : Type} (exec : Executor W) (lhs rhs : ObjectHolder) (context : W) :
    Result Bool × W :=
  match Equal exec lhs rhs context with
  | (.ret e, w) => (.ret (!e), w)
  | (.throw _, w) => (.throw "Cannot compare objects for NotEqual", w)
  | (.undefined, w) => (.undefined, w)

/-- `Greater` (lines 230-237): `!Less && !Equal` with the short circuit of
`&&`, every exception replaced. -/
def Greater {W : Type} (exec : Executor W) (lhs rhs : ObjectHolder) (context : W) :
    Result Bool × W :=
  match Less exec lhs rhs context with
  | (.ret true, w) => (.ret false, w)
  | (.ret false, w) =>
    match Equal exec lhs rhs w with
    | (.ret e, w1) => (.ret (!e), w1)
    | (.throw _, w1) => (.throw "Cannot compare objects for Greater", w1)
    | (.undefined, w1) => (.undefined, w1)
  | (.throw _, w) => (.throw "Cannot compare objects for Greater", w)
  | (.undefined, w) => (.undefined, w)

/-- `LessOrEqual` (lines 239-246): `!Greater`, every exception replaced. -/
def LessOrEqual {W : Type} (exec : Executor W) (lhs rhs : ObjectHolder) (context : W) :
    Result Bool × W :=
  match Greater exec lhs rhs context with
  | (.ret g, w) => (.ret (!g), w)
  | (.throw _, w) => (.throw "Cannot compare objects for LessOrEqual", w)
  | (.undefined, w) => (.undefined, w)

/-- `GreaterOrEqual` (lines 248-255): `!Less`, every exception replaced. -/
def GreaterOrEqual {W : Type} (exec : Executor W) (lhs rhs : ObjectHolder) (context : W) :
    Result Bool × W :=
  match Less exec lhs rhs context with
  | (.ret l, w) => (.ret (!l), w)
  | (.throw _, w) => (.throw "Cannot compare objects for GreaterOrEqual", w)
  | (.undefined, w) => (.undefined, w)

/-! ## Notions used by the statements about the runtime -/

/-- An executor that also records, in order, the body and the closure of every
execution. -/
def traced {W : Type} (exec : Executor W) : Executor (W × List (Nat × Closure)) :=
  fun body closure s => ((exec body closure s.1).1, ((exec body closure s.1).2,
    s.2 ++ [(body, closure)]))

/-- The methods that a class declares itself. -/
def Class.methods : Class → List Method
  | .mk _ cl_methods_ _ => cl_methods_

/-- The class followed by its parent chain. -/
def Class.chain : Class → List Class
  | .mk name_cl_ cl_methods_ cl_parent_ =>
    Class.mk name_cl_ cl_methods_ cl_parent_ ::
      (match cl_parent_ with
       | some parent => Class.chain parent
       | none => [])

/-- The primitive values: `Number`, `String` and `Bool`. -/
def primitive : Object → Bool
  | .Number _ => true
  | .String _ => true
  | .Bool _ => true
  | _ => false

/-- The variant of a value, as a tag. -/
def variant : Object → Nat
  | .Number _ => 0
  | .String _ => 1
  | .Bool _ => 2
  | .Class _ => 3
  | .ClassInstance _ _ => 4

/-- Whether a call ended by throwing. -/
def Result.isThrow {α : Type} : Result α → Bool
  | .throw _ => true
  | _ => false

end runtime

namespace parse

/-! ## What one call of `LoadToken` does to the state -/

/-- Case analysis on the result of `wordToken`: a keyword token or `Id s`. -/
theorem wordToken_cases (P : Token → Prop) (s : List Char)
    (hClass : P Token.Class) (hDef : P Token.Def) (hPrint : P Token.Print)
    (hReturn : P Token.Return) (hIf : P Token.If) (hElse : P Token.Else) (hOr : P Token.Or)
    (hAnd : P Token.And) (hNot : P Token.Not) (hNone : P Token.None) (hTrue : P Token.True)
    (hFalse : P Token.False) (hId : P (Token.Id s)) : P (wordToken s) := by
  unfold wordToken
  by_cases h1 : s = "class".toList
  · rw [if_pos h1]; exact hClass
  rw [if_neg h1]
  by_cases h2 : s = "def".toList
  · rw [if_pos h2]; exact hDef
  rw [if_neg h2]
  by_cases h3 : s = "print".toList
  · rw [if_pos h3]; exact hPrint
  rw [if_neg h3]
  by_cases h4 : s = "return".toList
  · rw [if_pos h4]; exact hReturn
  rw [if_neg h4]
  by_cases h5 : s = "if".toList
  · rw [if_pos h5]; exact hIf
  rw [if_neg h5]
  by_cases h6 : s = "else".toList
  · rw [if_pos h6]; exact hElse
  rw [if_neg h6]
  by_cases h7 : s = "or".toList
  · rw [if_pos h7]; exact hOr
  rw [if_neg h7]
  by_cases h8 : s = "and".toList
  · rw [if_pos h8]; exact hAnd
  rw [if_neg h8]
  by_cases h9 : s = "not".toList
  · rw [if_pos h9]; exact hNot
  rw [if_neg h9]
  by_cases h10 : s = "None".toList
  · rw [if_pos h10]; exact hNone
  rw [if_neg h10]
  by_cases h11 : s = "True".toList
  · rw [if_pos h11]; exact hTrue
  rw [if_neg h11]
  by_cases h12 : s = "False".toList
  · rw [if_pos h12]; exact hFalse
  rw [if_neg h12]
  exact hId

theorem wordToken_structural (s : List Char) : (wordToken s).structural = false := by
  apply wordToken_cases (fun t => t.structural = false) <;> rfl

theorem Good_plain {lx lx1 : Lexer} {t : Token} (hc : lx1.current_token_ = lx.current_token_)
    (hd : lx1.dent_ = lx.dent_) (hb : lx1.dent_buf_ = lx.dent_buf_)
    (ht : t.structural = false) : Outcome.Good lx (.ret t lx1) := by
  refine ⟨hc, fun h => hb ▸ h, ?_, ?_, fun _ _ => hd, ?_⟩ <;> intro h <;> rw [h] at ht <;>
    cases ht

theorem Good_of_eq {lx : Lexer} (lx1 : Lexer) {o : Outcome} (hc : lx1.current_token_ = lx.current_token_)
    (hd : lx1.dent_ = lx.dent_) (hb : lx1.dent_buf_ = lx.dent_buf_)
    (hl : lx1.input_.length ≤ lx.input_.length) (h : o.Good lx1) : o.Good lx := by
  cases o with
  | ret t lx2 =>
    unfold Outcome.Good at *
    rw [hc, hd, hb] at h
    exact h
  | again lx2 =>
    unfold Outcome.Good at *
    rw [hc, hd, hb] at h
    exact ⟨h.1, h.2.1, h.2.2.1, lt_of_lt_of_le h.2.2.2 hl⟩

theorem skipRun_length_le (ch : Char) (l : List Char) : (skipRun ch l).length ≤ l.length := by
  unfold skipRun get
  exact le_trans (List.dropWhile_suffix _).length_le (List.tail_suffix l).length_le

theorem skipRun_length_lt (ch : Char) (l : List Char) (h : l ≠ []) :
    (skipRun ch l).length < l.length := by
  cases l with
  | nil => exact absurd rfl h
  | cons a t =>
    unfold skipRun get
    have h1 : (List.dropWhile (fun c => c == ch) t).length ≤ t.length :=
      (List.dropWhile_suffix _).length_le
    simp only [List.tail_cons, List.length_cons]
    omega

theorem GetLine_length_le (l : List Char) : (GetLine l).length ≤ l.length := by
  unfold GetLine
  exact le_trans (List.tail_suffix _).length_le (List.dropWhile_suffix _).length_le

theorem ne_nil_of_toChar_ne {l : List Char} (h : toChar (peek l) ≠ EOFc) : l ≠ [] := by
  intro hl
  subst hl
  exact h rfl

theorem skipSpaces_fields (lx : Lexer) :
    (skipSpaces lx).current_token_ = lx.current_token_ ∧ (skipSpaces lx).dent_ = lx.dent_ ∧
    (skipSpaces lx).dent_buf_ = lx.dent_buf_ ∧
    (skipSpaces lx).input_.length ≤ lx.input_.length := by
  unfold skipSpaces
  split
  · exact ⟨rfl, rfl, rfl, skipRun_length_le _ _⟩
  · exact ⟨rfl, rfl, rfl, le_refl _⟩

theorem punctStage_good (lx : Lexer) (hne : lx.input_ ≠ []) : (punctStage lx).Good lx := by
  unfold punctStage
  simp only []
  split_ifs with h1 h2 h3 h4
  all_goals first
    | exact Good_plain rfl rfl rfl rfl
    | skip
  · exact ⟨rfl, fun h => h, (fun h => by cases h), (fun h => by cases h), fun _ _ => rfl,
      fun _ => h4⟩
  · refine ⟨rfl, rfl, rfl, ?_⟩
    have h5 := GetLine_length_le (get lx.input_).2
    have h6 : (get lx.input_).2.length < lx.input_.length := by
      cases hl : lx.input_ with
      | nil => exact absurd hl hne
      | cons a t => simp [get]
    exact lt_of_le_of_lt h5 h6

theorem tokenStage_good (lx : Lexer) : (tokenStage lx).Good lx := by
  obtain ⟨hc, hd, hb, hl⟩ := skipSpaces_fields lx
  refine Good_of_eq _ hc hd hb hl ?_
  unfold tokenStage
  simp only []
  split_ifs with h1 h2 h3
  · apply punctStage_good
    apply ne_nil_of_toChar_ne
    intro h
    rw [h] at h1
    revert h1
    decide
  · exact Good_plain rfl rfl rfl (wordToken_structural _)
  · exact Good_plain rfl rfl rfl rfl
  · exact Good_plain rfl rfl rfl rfl

theorem dedentStage_good (lx : Lexer) : (dedentStage lx).Good lx := by
  unfold dedentStage
  split_ifs with h
  · refine ⟨rfl, fun h1 => h1, (fun h1 => by cases h1), fun _ => ⟨rfl, fun h2 => ?_⟩,
      fun _ h1 => absurd rfl h1, (fun h1 => by cases h1)⟩
    exact lt_of_le_of_lt h2 h.2
  · exact tokenStage_good lx

theorem indentStage_good (lx : Lexer) (hne : toChar (peek lx.input_) = ' ' → lx.input_ ≠ []) :
    (indentStage lx).Good lx := by
  unfold indentStage
  simp only []
  split_ifs with h1 h2 h3 h4 h5 h6
  · exact ⟨rfl, rfl, rfl, lt_of_le_of_lt (GetLine_length_le _) (skipRun_length_lt _ _ (hne h2))⟩
  · exact ⟨rfl, fun h => h, fun _ => rfl, (fun h => by cases h), fun h => absurd rfl h,
      (fun h => by cases h)⟩
  · refine ⟨rfl, fun _ => ?_, (fun h => by cases h), fun _ => ⟨rfl, fun h2 => ?_⟩,
      fun _ h1 => absurd rfl h1, (fun h1 => by cases h1)⟩
    · show (0 : Int) ≤ (1 + _) / 2
      omega
    · have : (0 : Int) ≤ (1 + ((get lx.input_).2.takeWhile (fun c => c == ' ')).length) / 2 := by
        omega
      exact lt_of_le_of_lt this h5
  · exact Good_of_eq { lx with input_ := skipRun ' ' lx.input_ } rfl rfl rfl
      (skipRun_length_le _ _) (dedentStage_good _)
  · exact ⟨rfl, fun _ => le_refl _, (fun h => by cases h), fun _ => ⟨rfl, fun _ => h6⟩,
      fun _ h1 => absurd rfl h1, (fun h1 => by cases h1)⟩
  · exact dedentStage_good lx
  · exact dedentStage_good lx

theorem LoadTokenBody_good (lx : Lexer) : (LoadTokenBody lx).Good lx := by
  unfold LoadTokenBody
  split_ifs with h1 h2 h3 h4 h5
  · exact ⟨rfl, fun _ => le_refl _, (fun h => by cases h), fun _ => ⟨rfl, fun _ => h2⟩,
      fun _ h1 => absurd rfl h1, (fun h1 => by cases h1)⟩
  · exact Good_plain rfl rfl rfl rfl
  · refine ⟨rfl, fun h => h, (fun h => by cases h), (fun h => by cases h), fun _ _ => rfl, fun _ h => ?_⟩
    exact h3 (Or.inl h)
  · refine Good_of_eq { lx with input_ := skipRun '\n' lx.input_ } rfl rfl rfl
      (skipRun_length_le _ _) (indentStage_good _ ?_)
    intro h
    apply ne_nil_of_toChar_ne
    rw [h]
    decide
  · exact ⟨rfl, fun h => h, (fun h => by cases h), (fun h => by cases h), fun _ _ => rfl,
      fun _ => h5⟩
  · apply indentStage_good
    intro h
    apply ne_nil_of_toChar_ne
    rw [h]
    decide

/-! ## Termination of `LoadToken` -/

/-- Enough fuel gives a result: every nested call of `LoadToken` starts on a
strictly shorter stream, and more fuel than needed does not change the result. -/
theorem LoadTokenFuel_enough (fuel : Nat) :
    ∀ lx : Lexer, lx.input_.length < fuel →
      ∃ r, LoadTokenFuel fuel lx = some r ∧
        ∀ fuel1, lx.input_.length < fuel1 → LoadTokenFuel fuel1 lx = some r := by
  induction fuel with
  | zero => intro lx h; exact absurd h (Nat.not_lt_zero _)
  | succ n ih =>
    intro lx h
    have hg := LoadTokenBody_good lx
    cases hb : LoadTokenBody lx with
    | ret t lx1 =>
      refine ⟨(t, lx1), by simp only [LoadTokenFuel, hb], ?_⟩
      intro fuel1 h1
      cases fuel1 with
      | zero => exact absurd h1 (Nat.not_lt_zero _)
      | succ m => simp only [LoadTokenFuel, hb]
    | again lx1 =>
      rw [hb] at hg
      have hlen : lx1.input_.length < lx.input_.length := hg.2.2.2
      obtain ⟨r, hr, hall⟩ := ih lx1 (by omega)
      refine ⟨r, by simp only [LoadTokenFuel, hb]; exact hr, ?_⟩
      intro fuel1 h1
      cases fuel1 with
      | zero => exact absurd h1 (Nat.not_lt_zero _)
      | succ m =>
        simp only [LoadTokenFuel, hb]
        exact hall m (by omega)

/-- `LoadToken` is total: the fuel it is given always suffices. -/
theorem LoadTokenFuel_isSome (lx : Lexer) :
    LoadTokenFuel (lx.input_.length + 1) lx = some (LoadToken lx) := by
  obtain ⟨r, hr, _⟩ := LoadTokenFuel_enough (lx.input_.length + 1) lx (Nat.lt_succ_self _)
  unfold LoadToken
  rw [hr]
  rfl

theorem LoadTokenFuel_eq (lx : Lexer) (fuel : Nat) (h : lx.input_.length < fuel) :
    LoadTokenFuel fuel lx = some (LoadToken lx) := by
  obtain ⟨r, hr, hall⟩ := LoadTokenFuel_enough fuel lx h
  rw [hr, ← LoadTokenFuel_isSome lx, hall _ (Nat.lt_succ_self _)]

/-- The recursion equation of `LoadToken`: one pass through the body, and a
fresh call where the body ends with `return LoadToken();`. -/
theorem LoadToken_eq (lx : Lexer) :
    LoadToken lx =
      match LoadTokenBody lx with
      | .ret t lx1 => (t, lx1)
      | .again lx1 => LoadToken lx1 := by
  have h := LoadTokenFuel_isSome lx
  have hg := LoadTokenBody_good lx
  cases hb : LoadTokenBody lx with
  | ret t lx1 =>
    simp only [LoadTokenFuel, hb] at h
    exact (Option.some.inj h).symm
  | again lx1 =>
    rw [hb] at hg
    simp only [LoadTokenFuel, hb] at h
    rw [LoadTokenFuel_eq lx1 _ hg.2.2.2] at h
    exact (Option.some.inj h).symm

theorem LoadToken_ret {lx lx1 : Lexer} {t : Token} (h : LoadTokenBody lx = .ret t lx1) :
    LoadToken lx = (t, lx1) := by
  rw [LoadToken_eq, h]

theorem LoadToken_again {lx lx1 : Lexer} (h : LoadTokenBody lx = .again lx1) :
    LoadToken lx = LoadToken lx1 := by
  rw [LoadToken_eq, h]

/-- The state invariant of one call of `LoadToken`. -/
theorem LoadToken_good (lx : Lexer) :
    Outcome.Good lx (.ret (LoadToken lx).1 (LoadToken lx).2) := by
  have key : ∀ n (lx : Lexer), lx.input_.length < n →
      Outcome.Good lx (.ret (LoadToken lx).1 (LoadToken lx).2) := by
    intro n
    induction n with
    | zero => intro lx h; exact absurd h (Nat.not_lt_zero _)
    | succ n ih =>
      intro lx h
      have hg := LoadTokenBody_good lx
      cases hb : LoadTokenBody lx with
      | ret t lx1 =>
        rw [LoadToken_ret hb]
        rw [hb] at hg
        exact hg
      | again lx1 =>
        rw [LoadToken_again hb]
        rw [hb] at hg
        exact Good_of_eq lx1 hg.1 hg.2.1 hg.2.2.1 (le_of_lt hg.2.2.2) (ih lx1 (by have := hg.2.2.2; omega))
  exact key _ lx (Nat.lt_succ_self _)


/-! ## Token sequences -/

theorem advance_succ (n : Nat) (lx : Lexer) : advance (n + 1) lx = NextToken (advance n lx) := by
  induction n generalizing lx with
  | zero => rfl
  | succ n ih => exact ih (NextToken lx)

theorem emit_length (n : Nat) (lx : Lexer) : (emit n lx).length = n := by
  induction n generalizing lx with
  | zero => rfl
  | succ n ih => simp [emit, ih]

theorem emit_getElem? (n : Nat) (lx : Lexer) (i : Nat) (h : i < n) :
    (emit n lx)[i]? = some (advance (i + 1) lx).current_token_ := by
  induction n generalizing lx i with
  | zero => exact absurd h (Nat.not_lt_zero _)
  | succ n ih =>
    cases i with
    | zero => simp [emit, advance]
    | succ i =>
      simp only [emit, advance, List.getElem?_cons_succ]
      exact ih (NextToken lx) i (by omega)

theorem emit_add (m n : Nat) (lx : Lexer) :
    emit (m + n) lx = emit m lx ++ emit n (advance m lx) := by
  induction m generalizing lx with
  | zero => simp [emit, advance]
  | succ m ih =>
    have : m + 1 + n = (m + n) + 1 := by omega
    rw [this]
    simp only [emit, advance, List.cons_append, ih]

theorem advance_add (m n : Nat) (lx : Lexer) : advance (m + n) lx = advance n (advance m lx) := by
  induction m generalizing lx with
  | zero => simp [advance]
  | succ m ih =>
    have : m + 1 + n = (m + n) + 1 := by omega
    rw [this]
    simp only [advance, ih]

/-- The effect of `NextToken` on the indentation state, by the token emitted. -/
theorem NextToken_step (lx : Lexer) :
    (0 ≤ lx.dent_buf_ → 0 ≤ (NextToken lx).dent_buf_) ∧
    ((NextToken lx).current_token_ = Token.Indent → (NextToken lx).dent_ = lx.dent_ + 1) ∧
    ((NextToken lx).current_token_ = Token.Dedent →
      (NextToken lx).dent_ = lx.dent_ - 1 ∧ (0 ≤ lx.dent_buf_ → 0 < lx.dent_)) ∧
    ((NextToken lx).current_token_ ≠ Token.Indent → (NextToken lx).current_token_ ≠ Token.Dedent →
      (NextToken lx).dent_ = lx.dent_) ∧
    ((NextToken lx).current_token_ = Token.Newline → lx.current_token_ ≠ Token.Newline) :=
  (LoadToken_good lx).2

/-- The counts of `Indent` and `Dedent` among the next `n` tokens account for
the change of the pending depth, which stays non-negative. -/
theorem emit_balance (n : Nat) :
    ∀ lx : Lexer, 0 ≤ lx.dent_ → 0 ≤ lx.dent_buf_ →
      (advance n lx).dent_ =
        lx.dent_ + ((emit n lx).count Token.Indent : Int) - ((emit n lx).count Token.Dedent : Int) ∧
      0 ≤ (advance n lx).dent_ ∧ 0 ≤ (advance n lx).dent_buf_ := by
  induction n with
  | zero =>
    intro lx hd hb
    simp [advance, emit, hd, hb]
  | succ n ih =>
    intro lx hd hb
    obtain ⟨s1, s2, s3, s4, _⟩ := NextToken_step lx
    have hb1 := s1 hb
    simp only [advance, emit]
    by_cases hI : (NextToken lx).current_token_ = Token.Indent
    · have hd1 := s2 hI
      obtain ⟨e1, e2, e3⟩ := ih (NextToken lx) (by omega) hb1
      rw [hI, List.count_cons_self, List.count_cons_of_ne (by decide)]
      refine ⟨?_, e2, e3⟩
      rw [e1, hd1]
      push_cast
      ring
    · by_cases hD : (NextToken lx).current_token_ = Token.Dedent
      · obtain ⟨hd1, hpos⟩ := s3 hD
        have := hpos hb
        obtain ⟨e1, e2, e3⟩ := ih (NextToken lx) (by omega) hb1
        rw [hD, List.count_cons_self, List.count_cons_of_ne (by decide)]
        refine ⟨?_, e2, e3⟩
        rw [e1, hd1]
        push_cast
        ring
      · have hd1 := s4 hI hD
        obtain ⟨e1, e2, e3⟩ := ih (NextToken lx) (by omega) hb1
        rw [List.count_cons_of_ne (Ne.symm hI), List.count_cons_of_ne (Ne.symm hD)]
        refine ⟨?_, e2, e3⟩
        rw [e1, hd1]

/-! ## Laws of the token stream -/

/-- C1: for every input text and every `n`, among the first `n` tokens of the
lexer (the token pre-loaded by the constructor and the following `NextToken`
results) there are at least as many `Indent` as `Dedent` tokens; the pending
depth `dent_` after these tokens equals the number of `Indent` minus the
number of `Dedent` tokens and is never negative. -/
theorem indent_count_ge_dedent_count (input : List Char) (n : Nat) :
    (tokens input n).count Token.Dedent ≤ (tokens input n).count Token.Indent ∧
    (advance n (initial input)).dent_ =
      ((tokens input n).count Token.Indent : Int) - ((tokens input n).count Token.Dedent : Int) ∧
    0 ≤ (advance n (initial input)).dent_ := by
  obtain ⟨e1, e2, _⟩ := emit_balance n (initial input) (le_refl _) (le_refl _)
  have h0 : (initial input).dent_ = 0 := rfl
  rw [h0] at e1
  unfold tokens
  refine ⟨?_, ?_, e2⟩
  · omega
  · omega

/-- C3: two consecutive `Newline` tokens are never emitted, and the first
token of the lexer (loaded by the constructor as if a `Newline` had just been
emitted) is never `Newline`. -/
theorem no_consecutive_newlines (input : List Char) (n : Nat) :
    (tokens input n).head? ≠ some Token.Newline ∧
    ∀ i : Nat, (tokens input n)[i]? = some Token.Newline →
      (tokens input n)[i + 1]? ≠ some Token.Newline := by
  unfold tokens
  constructor
  · cases n with
    | zero => simp [emit]
    | succ n =>
      simp only [emit, List.head?_cons]
      intro h
      exact (NextToken_step (initial input)).2.2.2.2 (Option.some.inj h) rfl
  · intro i h1 h2
    have hi : i + 1 < n := by
      by_contra hc
      have : (emit n (initial input)).length ≤ i + 1 := by rw [emit_length]; omega
      rw [List.getElem?_eq_none this] at h2
      cases h2
    rw [emit_getElem? n _ i (by omega)] at h1
    rw [emit_getElem? n _ (i + 1) hi] at h2
    rw [advance_succ (i + 1)] at h2
    exact (NextToken_step (advance (i + 1) (initial input))).2.2.2.2 (Option.some.inj h2)
      (Option.some.inj h1)


/-! ## End of input -/

theorem LoadTokenBody_nil (lx : Lexer) (hin : lx.input_ = []) :
    LoadTokenBody lx =
      if lx.dent_ > 0 then .ret Token.Dedent { lx with dent_ := lx.dent_ - 1, dent_buf_ := 0 }
      else if lx.current_token_ = Token.Newline ∨ lx.current_token_ = Token.Eof ∨
          lx.current_token_ = Token.Dedent then .ret Token.Eof lx
      else .ret Token.Newline lx := by
  unfold LoadTokenBody
  rw [hin, if_pos (by rfl)]

theorem NextToken_ret {lx lx1 : Lexer} {t : Token} (h : LoadTokenBody lx = .ret t lx1) :
    NextToken lx = { lx1 with current_token_ := t } := by
  unfold NextToken
  rw [LoadToken_ret h]

theorem NextToken_nil_pos (lx : Lexer) (hin : lx.input_ = []) (hd : 0 < lx.dent_) :
    NextToken lx =
      { lx with dent_ := lx.dent_ - 1, dent_buf_ := 0, current_token_ := Token.Dedent } := by
  have h : LoadTokenBody lx =
      .ret Token.Dedent { lx with dent_ := lx.dent_ - 1, dent_buf_ := 0 } := by
    rw [LoadTokenBody_nil lx hin, if_pos hd]
  rw [NextToken_ret h]

theorem NextToken_nil_eof (lx : Lexer) (hin : lx.input_ = []) (hd : ¬ 0 < lx.dent_)
    (hc : lx.current_token_ = Token.Newline ∨ lx.current_token_ = Token.Eof ∨
      lx.current_token_ = Token.Dedent) :
    NextToken lx = { lx with current_token_ := Token.Eof } := by
  have h : LoadTokenBody lx = .ret Token.Eof lx := by
    rw [LoadTokenBody_nil lx hin, if_neg hd, if_pos hc]
  rw [NextToken_ret h]

theorem NextToken_nil_newline (lx : Lexer) (hin : lx.input_ = []) (hd : ¬ 0 < lx.dent_)
    (hc : ¬ (lx.current_token_ = Token.Newline ∨ lx.current_token_ = Token.Eof ∨
      lx.current_token_ = Token.Dedent)) :
    NextToken lx = { lx with current_token_ := Token.Newline } := by
  have h : LoadTokenBody lx = .ret Token.Newline lx := by
    rw [LoadTokenBody_nil lx hin, if_neg hd, if_neg hc]
  rw [NextToken_ret h]

/-- On an exhausted stream with pending depth `d + 1` the next `d + 1` tokens
are `Dedent`, the depth goes down by one with each, and the lexer is left with
`Dedent` as its current token. -/
theorem drain_at_eof (d : Nat) :
    ∀ lx : Lexer, lx.input_ = [] → lx.dent_ = (d : Int) + 1 →
      emit (d + 1) lx = List.replicate (d + 1) Token.Dedent ∧
      (advance (d + 1) lx).input_ = [] ∧ (advance (d + 1) lx).dent_ = 0 ∧
      (advance (d + 1) lx).current_token_ = Token.Dedent ∧
      ∀ j : Nat, j ≤ d + 1 → (advance j lx).dent_ = (d : Int) + 1 - j := by
  induction d with
  | zero =>
    intro lx hin hd
    have h := NextToken_nil_pos lx hin (by omega)
    refine ⟨?_, ?_, ?_, ?_, ?_⟩
    · simp [emit, h, List.replicate]
    · simp [advance, h, hin]
    · simp [advance, h, hd]
    · simp [advance, h]
    · intro j hj
      interval_cases j
      · simp [advance, hd]
      · simp [advance, h, hd]
  | succ d ih =>
    intro lx hin hd
    have h := NextToken_nil_pos lx hin (by omega)
    have h1 : (NextToken lx).input_ = [] := by rw [h]; exact hin
    have h2 : (NextToken lx).dent_ = (d : Int) + 1 := by rw [h]; simp [hd]
    obtain ⟨e1, e2, e3, e4, e5⟩ := ih (NextToken lx) h1 h2
    refine ⟨?_, e2, e3, e4, ?_⟩
    · rw [emit, e1, h]
      rfl
    · intro j hj
      cases j with
      | zero => simp [advance, hd]
      | succ j =>
        rw [advance, e5 j (by omega)]
        push_cast
        ring

/-- C5: a `Dedent` is emitted at the end of input for every indentation level
that is still open.  When `NextToken` is called with the stream exhausted and
pending depth `d`, the next `d` tokens are `Dedent`, each decrementing the
depth; then, if `d = 0` and the previous token is none of `Newline`, `Eof`,
`Dedent`, one terminating `Newline` follows; then `Eof`. -/
theorem dedent_per_open_level_at_eof (lx : Lexer) (d : Nat) (hin : lx.input_ = [])
    (hd : lx.dent_ = (d : Int)) :
    emit (d + (if d = 0 ∧ lx.current_token_ ≠ Token.Newline ∧ lx.current_token_ ≠ Token.Eof ∧
        lx.current_token_ ≠ Token.Dedent then 1 else 0) + 1) lx =
      List.replicate d Token.Dedent ++
        (if d = 0 ∧ lx.current_token_ ≠ Token.Newline ∧ lx.current_token_ ≠ Token.Eof ∧
          lx.current_token_ ≠ Token.Dedent then [Token.Newline] else []) ++ [Token.Eof] ∧
    ∀ j : Nat, j ≤ d → (advance j lx).dent_ = (d : Int) - j := by
  cases d with
  | zero =>
    have hd0 : ¬ 0 < lx.dent_ := by rw [hd]; simp
    refine ⟨?_, ?_⟩
    · by_cases hc : lx.current_token_ = Token.Newline ∨ lx.current_token_ = Token.Eof ∨
          lx.current_token_ = Token.Dedent
      · have h := NextToken_nil_eof lx hin hd0 hc
        have hif : ¬ (0 = 0 ∧ lx.current_token_ ≠ Token.Newline ∧
            lx.current_token_ ≠ Token.Eof ∧ lx.current_token_ ≠ Token.Dedent) := by
          intro hh
          rcases hc with hc | hc | hc
          · exact hh.2.1 hc
          · exact hh.2.2.1 hc
          · exact hh.2.2.2 hc
        rw [if_neg hif, if_neg hif]
        simp only [emit, h, List.replicate, List.nil_append]
      · have h := NextToken_nil_newline lx hin hd0 hc
        have hif : (0 = 0 ∧ lx.current_token_ ≠ Token.Newline ∧
            lx.current_token_ ≠ Token.Eof ∧ lx.current_token_ ≠ Token.Dedent) := by
          refine ⟨rfl, fun h1 => hc (Or.inl h1), fun h1 => hc (Or.inr (Or.inl h1)),
            fun h1 => hc (Or.inr (Or.inr h1))⟩
        rw [if_pos hif, if_pos hif]
        have h2 := NextToken_nil_eof { lx with current_token_ := Token.Newline } hin hd0
          (Or.inl rfl)
        simp only [emit, h, h2, List.replicate, List.nil_append, List.singleton_append]
    · intro j hj
      have : j = 0 := by omega
      subst this
      simp [advance, hd]
  | succ d =>
    have hd1 : lx.dent_ = (d : Int) + 1 := by rw [hd]; push_cast; ring
    obtain ⟨e1, e2, e3, e4, e5⟩ := drain_at_eof d lx hin hd1
    have hif : ¬ (d + 1 = 0 ∧ lx.current_token_ ≠ Token.Newline ∧
        lx.current_token_ ≠ Token.Eof ∧ lx.current_token_ ≠ Token.Dedent) := by
      intro hh
      exact absurd hh.1 (Nat.succ_ne_zero d)
    rw [if_neg hif, if_neg hif]
    refine ⟨?_, ?_⟩
    · show emit ((d + 1) + 1) lx = _
      rw [emit_add (d + 1) 1, e1]
      have h := NextToken_nil_eof (advance (d + 1) lx) e2 (by rw [e3]; simp)
        (Or.inr (Or.inr e4))
      simp only [emit, h, List.append_nil]
    · intro j hj
      rw [e5 j hj]
      push_cast
      ring

/-- Witness for C5 (two open levels after an identifier). -/
theorem dedent_per_open_level_at_eof_witness :
    emit 3 { input_ := [], current_token_ := Token.Id "x".toList, dent_ := 2, dent_buf_ := 0 } =
      [Token.Dedent, Token.Dedent, Token.Eof] :=
  (dedent_per_open_level_at_eof
    { input_ := [], current_token_ := Token.Id "x".toList, dent_ := 2, dent_buf_ := 0 } 2
    rfl rfl).1


/-! ## Ordinary tokens and the `Dedent` tokens pending before them -/

theorem LoadTokenBody_ordinary (lx : Lexer) (h1 : toChar (peek lx.input_) ≠ EOFc)
    (h2 : toChar (peek lx.input_) ≠ '\n') (h3 : toChar (peek lx.input_) ≠ ' ') :
    LoadTokenBody lx =
      if lx.current_token_ = Token.Newline ∧ 0 < lx.dent_ then
        .ret Token.Dedent { lx with dent_ := lx.dent_ - 1, dent_buf_ := 0 }
      else if lx.current_token_ = Token.Dedent ∧ lx.dent_buf_ < lx.dent_ then
        .ret Token.Dedent { lx with dent_ := lx.dent_ - 1 }
      else tokenStage lx := by
  unfold LoadTokenBody
  rw [if_neg h1, if_neg h2]
  unfold indentStage
  by_cases hN : lx.current_token_ = Token.Newline
  · rw [if_pos hN, if_neg h3]
    by_cases hd : 0 < lx.dent_
    · rw [if_pos hd, if_pos ⟨hN, hd⟩]
    · rw [if_neg hd, if_neg (fun h => hd h.2)]
      rfl
  · rw [if_neg hN, if_neg (fun h => hN h.1)]
    rfl

/-- Before an ordinary token the lexer returns `pendingDedents` tokens
`Dedent` without consuming anything, and is then at line 195. -/
theorem drain_pending (k : Nat) :
    ∀ lx : Lexer, toChar (peek lx.input_) ≠ EOFc → toChar (peek lx.input_) ≠ '\n' →
      toChar (peek lx.input_) ≠ ' ' → pendingDedents lx = k →
      emit k lx = List.replicate k Token.Dedent ∧ (advance k lx).input_ = lx.input_ ∧
      LoadTokenBody (advance k lx) = tokenStage (advance k lx) := by
  induction k with
  | zero =>
    intro lx h1 h2 h3 hp
    refine ⟨rfl, rfl, ?_⟩
    show LoadTokenBody lx = tokenStage lx
    rw [LoadTokenBody_ordinary lx h1 h2 h3]
    unfold pendingDedents at hp
    by_cases hN : lx.current_token_ = Token.Newline
    · rw [if_pos hN] at hp
      have hD : lx.current_token_ ≠ Token.Dedent := by rw [hN]; decide
      rw [if_neg (fun h => by have := h.2; omega), if_neg (fun h => hD h.1)]
    · rw [if_neg hN] at hp
      rw [if_neg (fun h => hN h.1)]
      by_cases hD : lx.current_token_ = Token.Dedent
      · rw [if_pos hD] at hp
        rw [if_neg (fun h => by have := h.2; omega)]
      · rw [if_neg (fun h => hD h.1)]
  | succ k ih =>
    intro lx h1 h2 h3 hp
    have hb := LoadTokenBody_ordinary lx h1 h2 h3
    unfold pendingDedents at hp
    by_cases hN : lx.current_token_ = Token.Newline
    · rw [if_pos hN] at hp
      rw [if_pos ⟨hN, by omega⟩] at hb
      have hn := NextToken_ret hb
      have hp1 : pendingDedents (NextToken lx) = k := by
        rw [hn]
        simp only [pendingDedents]
        rw [if_pos trivial, if_neg (by decide)]
        omega
      obtain ⟨e1, e2, e3⟩ := ih (NextToken lx) (by rw [hn]; exact h1) (by rw [hn]; exact h2)
        (by rw [hn]; exact h3) hp1
      refine ⟨?_, ?_, e3⟩
      · rw [emit, e1, hn]; rfl
      · rw [advance, e2, hn]
    · rw [if_neg hN] at hp
      by_cases hD : lx.current_token_ = Token.Dedent
      · rw [if_pos hD] at hp
        rw [if_neg (fun h => hN h.1), if_pos ⟨hD, by omega⟩] at hb
        have hn := NextToken_ret hb
        have hp1 : pendingDedents (NextToken lx) = k := by
          rw [hn]
          simp only [pendingDedents]
          rw [if_pos trivial, if_neg (by decide)]
          omega
        obtain ⟨e1, e2, e3⟩ := ih (NextToken lx) (by rw [hn]; exact h1) (by rw [hn]; exact h2)
          (by rw [hn]; exact h3) hp1
        refine ⟨?_, ?_, e3⟩
        · rw [emit, e1, hn]; rfl
        · rw [advance, e2, hn]
      · rw [if_neg hD] at hp
        exact absurd hp (by omega)

/-- The token sequence of an ordinary token: the pending `Dedent` tokens, then
the token `t` that line 195 onwards returns, leaving the stream `rest`. -/
theorem emit_ordinary (lx : Lexer) (t : Token) (rest : List Char)
    (h1 : toChar (peek lx.input_) ≠ EOFc) (h2 : toChar (peek lx.input_) ≠ '\n')
    (h3 : toChar (peek lx.input_) ≠ ' ')
    (ht : ∀ lx1 : Lexer, lx1.input_ = lx.input_ →
      tokenStage lx1 = .ret t { lx1 with input_ := rest }) :
    emit (pendingDedents lx + 1) lx = List.replicate (pendingDedents lx) Token.Dedent ++ [t] ∧
    (advance (pendingDedents lx) lx).input_ = lx.input_ ∧
    (advance (pendingDedents lx + 1) lx).input_ = rest := by
  obtain ⟨e1, e2, e3⟩ := drain_pending (pendingDedents lx) lx h1 h2 h3 rfl
  rw [ht _ e2] at e3
  have hn := NextToken_ret e3
  refine ⟨?_, e2, ?_⟩
  · rw [emit_add, e1]
    simp only [emit, hn]
  · rw [advance_add]
    simp only [advance, hn]


/-! ## Identifiers and keywords -/

theorem toChar_peek_cons (c : Char) (rest : List Char) : toChar (peek (c :: rest)) = c := rfl

theorem isalpha_not_ispunct {c : Char} (h : isalpha c = true) : ispunct c = false := by
  simp only [isalpha, ispunct, Bool.or_eq_true, Bool.and_eq_true, decide_eq_true_eq,
    Bool.or_eq_false_iff, Bool.and_eq_false_iff, decide_eq_false_iff_not] at *
  omega

theorem isdigit_not_ispunct {c : Char} (h : isdigit c = true) : ispunct c = false := by
  simp only [isdigit, ispunct, Bool.or_eq_true, Bool.and_eq_true, decide_eq_true_eq,
    Bool.or_eq_false_iff, Bool.and_eq_false_iff, decide_eq_false_iff_not] at *
  omega

theorem isdigit_not_isalpha {c : Char} (h : isdigit c = true) : isalpha c = false := by
  simp only [isdigit, isalpha, Bool.or_eq_true, Bool.and_eq_true, decide_eq_true_eq,
    Bool.or_eq_false_iff, Bool.and_eq_false_iff, decide_eq_false_iff_not] at *
  omega

theorem identStart_facts {c : Char} (hc : isalpha c = true ∨ c = '_') :
    c ≠ EOFc ∧ c ≠ '\n' ∧ c ≠ ' ' ∧ (ispunct c && c != '_') = false ∧
    (isalpha c || c == '_') = true ∧ identChar c = true := by
  rcases hc with hc | hc
  · refine ⟨?_, ?_, ?_, ?_, ?_, ?_⟩
    · intro h; rw [h] at hc; revert hc; decide
    · intro h; rw [h] at hc; revert hc; decide
    · intro h; rw [h] at hc; revert hc; decide
    · rw [isalpha_not_ispunct hc]; rfl
    · rw [hc]; rfl
    · unfold identChar isalnum; rw [hc]; rfl
  · subst hc
    decide

theorem skipSpaces_of_ne (lx : Lexer) (h : toChar (peek lx.input_) ≠ ' ') :
    skipSpaces lx = lx := by
  unfold skipSpaces
  rw [if_neg h]

theorem takeWhile_run (p : Char → Bool) (w rest : List Char) (hw : ∀ x ∈ w, p x = true)
    (hmax : ∀ y, rest.head? = some y → p y = false) :
    (w ++ rest).takeWhile p = w ∧ (w ++ rest).dropWhile p = rest := by
  rw [List.takeWhile_append_of_pos hw, List.dropWhile_append_of_pos hw]
  cases rest with
  | nil => simp
  | cons y r =>
    have hy := hmax y rfl
    simp [List.takeWhile_cons, List.dropWhile_cons, hy]

theorem tokenStage_word (lx : Lexer) (c : Char) (w rest : List Char)
    (hin : lx.input_ = c :: w ++ rest) (hc : isalpha c = true ∨ c = '_')
    (hw : ∀ x ∈ w, identChar x = true) (hmax : ∀ y, rest.head? = some y → identChar y = false) :
    tokenStage lx = .ret (wordToken (c :: w)) { lx with input_ := rest } := by
  obtain ⟨_, _, f3, f4, f5, f6⟩ := identStart_facts hc
  have hla : toChar (peek lx.input_) = c := by rw [hin]; rfl
  unfold tokenStage
  simp only []
  rw [skipSpaces_of_ne lx (by rw [hla]; exact f3), hla, f4, f5]
  simp only [Bool.false_eq_true, if_false, if_true]
  unfold wordStage
  have hrun := takeWhile_run identChar (c :: w) rest
    (by intro x hx; rcases List.mem_cons.mp hx with h | h; · rw [h]; exact f6
        · exact hw x h) hmax
  have h1 : List.takeWhile (fun c => isalnum c || c == '_') lx.input_ = c :: w := by
    rw [hin]; exact hrun.1
  have h2 : List.dropWhile (fun c => isalnum c || c == '_') lx.input_ = rest := by
    rw [hin]; exact hrun.2
  rw [h1, h2]

/-- Every keyword spelling of the specification is mapped to its token. -/
theorem wordToken_keywords : ∀ p ∈ specKeywords, wordToken p.1 = p.2 := by decide

/-- Different keyword spellings have different tokens, none of them `Id`. -/
theorem specKeywords_injective :
    ∀ p ∈ specKeywords, ∀ q ∈ specKeywords, p.2 = q.2 → p.1 = q.1 := by decide

theorem wordToken_id_or_keyword (s : List Char) :
    wordToken s = Token.Id s ∨ (s, wordToken s) ∈ specKeywords := by
  unfold wordToken
  by_cases h1 : s = "class".toList
  · rw [if_pos h1, h1]; right; decide
  rw [if_neg h1]
  by_cases h2 : s = "def".toList
  · rw [if_pos h2, h2]; right; decide
  rw [if_neg h2]
  by_cases h3 : s = "print".toList
  · rw [if_pos h3, h3]; right; decide
  rw [if_neg h3]
  by_cases h4 : s = "return".toList
  · rw [if_pos h4, h4]; right; decide
  rw [if_neg h4]
  by_cases h5 : s = "if".toList
  · rw [if_pos h5, h5]; right; decide
  rw [if_neg h5]
  by_cases h6 : s = "else".toList
  · rw [if_pos h6, h6]; right; decide
  rw [if_neg h6]
  by_cases h7 : s = "or".toList
  · rw [if_pos h7, h7]; right; decide
  rw [if_neg h7]
  by_cases h8 : s = "and".toList
  · rw [if_pos h8, h8]; right; decide
  rw [if_neg h8]
  by_cases h9 : s = "not".toList
  · rw [if_pos h9, h9]; right; decide
  rw [if_neg h9]
  by_cases h10 : s = "None".toList
  · rw [if_pos h10, h10]; right; decide
  rw [if_neg h10]
  by_cases h11 : s = "True".toList
  · rw [if_pos h11, h11]; right; decide
  rw [if_neg h11]
  by_cases h12 : s = "False".toList
  · rw [if_pos h12, h12]; right; decide
  rw [if_neg h12]
  left; rfl

theorem specKeywords_not_id : ∀ p ∈ specKeywords, p.2.structural = false ∧
    (match p.2 with | Token.Id _ => false | _ => true) = true := by decide

theorem wordToken_iff (s kw : List Char) (t : Token) (h : (kw, t) ∈ specKeywords) :
    wordToken s = t ↔ s = kw := by
  constructor
  · intro hs
    rcases wordToken_id_or_keyword s with h1 | h1
    · have := (specKeywords_not_id (kw, t) h).2
      rw [← hs, h1] at this
      cases this
    · exact specKeywords_injective (s, wordToken s) h1 (kw, t) h hs
  · intro hs
    rw [hs]
    exact wordToken_keywords (kw, t) h

theorem wordToken_other (s : List Char) (h : ∀ kw t, (kw, t) ∈ specKeywords → s ≠ kw) :
    wordToken s = Token.Id s := by
  rcases wordToken_id_or_keyword s with h1 | h1
  · exact h1
  · exact absurd rfl (h s (wordToken s) h1)

/-- C6: identifier lexing is maximal-munch and keywords match only the
complete spelling.  When the lookahead `c` is a letter or `_` and `c :: w` is
the maximal run of letters, digits and `_` at the head of the stream, the
lexer (after the `Dedent` tokens that are pending, which consume nothing)
consumes exactly that run as one token; the token is the keyword token of the
specification's table exactly when the run is the keyword's spelling, and
`Id` of the run for every other run. -/
theorem identifier_maximal_munch (lx : Lexer) (c : Char) (w rest : List Char)
    (hin : lx.input_ = c :: w ++ rest) (hc : isalpha c = true ∨ c = '_')
    (hw : ∀ x ∈ w, identChar x = true) (hmax : ∀ y, rest.head? = some y → identChar y = false) :
    emit (pendingDedents lx + 1) lx =
      List.replicate (pendingDedents lx) Token.Dedent ++ [wordToken (c :: w)] ∧
    (advance (pendingDedents lx) lx).input_ = lx.input_ ∧
    (advance (pendingDedents lx + 1) lx).input_ = rest ∧
    (∀ kw t, (kw, t) ∈ specKeywords → (wordToken (c :: w) = t ↔ c :: w = kw)) ∧
    ((∀ kw t, (kw, t) ∈ specKeywords → c :: w ≠ kw) → wordToken (c :: w) = Token.Id (c :: w)) := by
  obtain ⟨f1, f2, f3, _⟩ := identStart_facts hc
  have hla : toChar (peek lx.input_) = c := by rw [hin]; rfl
  obtain ⟨e1, e2, e3⟩ := emit_ordinary lx (wordToken (c :: w)) rest (by rw [hla]; exact f1)
    (by rw [hla]; exact f2) (by rw [hla]; exact f3)
    (fun lx1 h1 => tokenStage_word lx1 c w rest (by rw [h1, hin]) hc hw hmax)
  exact ⟨e1, e2, e3, fun kw t h => wordToken_iff (c :: w) kw t h, wordToken_other (c :: w)⟩

/-- Witness for C6: `classes = 1` after a `Newline` at depth 1 gives the
pending `Dedent` and then the identifier `classes`, not the keyword. -/
theorem identifier_maximal_munch_witness :
    emit 2 (Lexer.mk "classes = 1".toList Token.Newline 1 0) =
      [Token.Dedent, Token.Id "classes".toList] :=
  (identifier_maximal_munch (Lexer.mk "classes = 1".toList Token.Newline 1 0)
    'c' "lasses".toList " = 1".toList rfl (by decide) (by decide) (by decide)).1


/-! ## String literals -/

theorem unescape_eq_spec (e : Char) : unescape e = specUnescape e := by
  unfold unescape specUnescape
  by_cases h1 : e = 't'
  · rw [if_pos h1, if_pos h1]
  · rw [if_neg h1, if_neg h1]
    by_cases h2 : e = BACKSLASH
    · rw [if_pos h2, h2]; decide
    · rw [if_neg h2]
      by_cases h3 : e = 'n'
      · rw [if_pos h3, if_pos h3]
      · rw [if_neg h3, if_neg h3, if_neg h2]

theorem ParseString_closed (q : Char) (hq : q ≠ BACKSLASH) (rest : List Char) (n : Nat) :
    ∀ body s : List Char, body.length ≤ n → closedBody q body = true →
      ParseString (body ++ q :: rest) q s = (s ++ specDecode body, rest) := by
  induction n with
  | zero =>
    intro body s hlen _
    have hb : body = [] := List.length_eq_zero.mp (Nat.le_zero.mp hlen)
    subst hb
    cases rest with
    | nil => simp [ParseString, specDecode, hq]
    | cons e r => simp [ParseString, specDecode, hq]
  | succ n ih =>
    intro body s hlen hcl
    match body, hlen, hcl with
    | [], _, _ =>
      cases rest with
      | nil => simp [ParseString, specDecode, hq]
      | cons e r => simp [ParseString, specDecode, hq]
    | [c], _, hcl =>
      simp only [closedBody, Bool.and_eq_true, bne_iff_ne, ne_eq] at hcl
      have h := ih [] (s ++ [c]) (Nat.zero_le _) rfl
      simp only [List.nil_append, specDecode, List.append_nil] at h
      simp only [List.singleton_append, ParseString, hcl.1, hcl.2, if_false, h, specDecode]
    | c :: e :: b, hlen, hcl =>
      simp only [List.length_cons] at hlen
      by_cases hc : c = BACKSLASH
      · simp only [closedBody, hc, if_true] at hcl
        have h := ih b (s ++ [unescape e]) (by omega) hcl
        show ParseString (c :: e :: (b ++ q :: rest)) q s = _
        rw [ParseString, if_pos hc, h, specDecode, if_pos hc, unescape_eq_spec,
          List.append_assoc, List.singleton_append]
      · simp only [closedBody, hc, if_false, Bool.and_eq_true, bne_iff_ne, ne_eq] at hcl
        have h := ih (e :: b) (s ++ [c]) (by simp only [List.length_cons]; omega) hcl.2
        show ParseString (c :: e :: (b ++ q :: rest)) q s = _
        rw [ParseString, if_neg hc, if_neg hcl.1]
        show ParseString ((e :: b) ++ q :: rest) q (s ++ [c]) = _
        rw [h, specDecode, if_neg hc, List.append_assoc, List.singleton_append]

theorem escape_closed (q : Char) (hq : q = DQUOTE ∨ q = SQUOTE) (p : List Char) :
    closedBody q (escape q p) = true ∧ specDecode (escape q p) = p := by
  have hqb : q ≠ BACKSLASH := by rcases hq with h | h <;> rw [h] <;> decide
  have hu : specUnescape q = q := by rcases hq with h | h <;> rw [h] <;> decide
  have hub : specUnescape BACKSLASH = BACKSLASH := by decide
  induction p with
  | nil => exact ⟨rfl, rfl⟩
  | cons c p ih =>
    unfold escape
    by_cases hc : c = BACKSLASH ∨ c = q
    · rw [if_pos hc]
      refine ⟨?_, ?_⟩
      · simp only [closedBody, if_true]
        exact ih.1
      · simp only [specDecode, if_true, ih.2]
        rcases hc with h | h
        · rw [h, hub]
        · rw [h, hu]
    · rw [if_neg hc]
      have hc1 : c ≠ BACKSLASH := fun h => hc (Or.inl h)
      have hc2 : c ≠ q := fun h => hc (Or.inr h)
      cases he : escape q p with
      | nil =>
        rw [he] at ih
        simp only [specDecode] at ih
        refine ⟨?_, ?_⟩
        · simp [closedBody, hc1, hc2]
        · simp [specDecode, ← ih.2]
      | cons e r =>
        rw [he] at ih
        refine ⟨?_, ?_⟩
        · simp only [closedBody, hc1, if_false, Bool.and_eq_true, bne_iff_ne, ne_eq]
          exact ⟨hc2, ih.1⟩
        · simp only [specDecode, hc1, if_false, ih.2]

theorem tokenStage_string (q : Char) (hq : q = DQUOTE ∨ q = SQUOTE) (lx : Lexer)
    (tail : List Char) (hin : lx.input_ = q :: tail) :
    tokenStage lx = .ret (Token.String (ParseString tail q []).1)
      { lx with input_ := (ParseString tail q []).2 } := by
  have hla : toChar (peek lx.input_) = q := by rw [hin]; rfl
  have hsp : q ≠ ' ' := by rcases hq with h | h <;> rw [h] <;> decide
  have hp : (ispunct q && q != '_') = true := by rcases hq with h | h <;> rw [h] <;> decide
  unfold tokenStage
  simp only []
  rw [skipSpaces_of_ne lx (by rw [hla]; exact hsp), hla, hp, if_pos rfl]
  unfold punctStage
  simp only []
  have hg1 : toChar (get lx.input_).1 = q := by rw [hin]; rfl
  have hg2 : (get lx.input_).2 = tail := by rw [hin]; rfl
  rw [hg1, hg2]
  rcases hq with h | h
  · rw [if_pos h, h]
  · have hne : q ≠ DQUOTE := by rw [h]; decide
    rw [if_neg hne, if_pos h, h]

/-- C7: a string literal opened by a quote `q` and closed by the first
unescaped `q` gives one `String` token whose payload is the text in between
with the escapes decoded (`\t` TAB, `\n` LF, `\\` backslash, any other `\x`
the character `x`), and the lexer consumes exactly through the closing quote;
hence the literal `q + escape(p) + q` gives `String(p)` for every text `p`.
The token follows the `Dedent` tokens that are pending, which consume
nothing. -/
theorem string_literal_payload (q : Char) (hq : q = DQUOTE ∨ q = SQUOTE) (lx : Lexer)
    (rest : List Char) :
    (∀ body : List Char, lx.input_ = q :: (body ++ q :: rest) → closedBody q body = true →
      emit (pendingDedents lx + 1) lx =
        List.replicate (pendingDedents lx) Token.Dedent ++ [Token.String (specDecode body)] ∧
      (advance (pendingDedents lx) lx).input_ = lx.input_ ∧
      (advance (pendingDedents lx + 1) lx).input_ = rest) ∧
    (∀ p : List Char, lx.input_ = q :: (escape q p ++ q :: rest) →
      emit (pendingDedents lx + 1) lx =
        List.replicate (pendingDedents lx) Token.Dedent ++ [Token.String p] ∧
      (advance (pendingDedents lx) lx).input_ = lx.input_ ∧
      (advance (pendingDedents lx + 1) lx).input_ = rest) := by
  have hqb : q ≠ BACKSLASH := by rcases hq with h | h <;> rw [h] <;> decide
  have f1 : q ≠ EOFc := by rcases hq with h | h <;> rw [h] <;> decide
  have f2 : q ≠ '\n' := by rcases hq with h | h <;> rw [h] <;> decide
  have f3 : q ≠ ' ' := by rcases hq with h | h <;> rw [h] <;> decide
  have main : ∀ body : List Char, lx.input_ = q :: (body ++ q :: rest) →
      closedBody q body = true →
      emit (pendingDedents lx + 1) lx =
        List.replicate (pendingDedents lx) Token.Dedent ++ [Token.String (specDecode body)] ∧
      (advance (pendingDedents lx) lx).input_ = lx.input_ ∧
      (advance (pendingDedents lx + 1) lx).input_ = rest := by
    intro body hin hcl
    have hla : toChar (peek lx.input_) = q := by rw [hin]; rfl
    have hps := ParseString_closed q hqb rest body.length body [] (le_refl _) hcl
    apply emit_ordinary lx _ rest (by rw [hla]; exact f1) (by rw [hla]; exact f2)
      (by rw [hla]; exact f3)
    intro lx1 h1
    rw [tokenStage_string q hq lx1 (body ++ q :: rest) (by rw [h1, hin]), hps]
    rfl
  refine ⟨main, ?_⟩
  intro p hin
  have h := main (escape q p) hin (escape_closed q hq p).1
  rw [(escape_closed q hq p).2] at h
  exact h

/-- Witness for C7: the literal of scenario 4 of the specification, and the
same payload through `escape`. -/
theorem string_literal_payload_witness :
    emit 1 (Lexer.mk (DQUOTE :: ("he said ".toList ++ [BACKSLASH, DQUOTE] ++ "hi".toList ++
        [BACKSLASH, DQUOTE] ++ DQUOTE :: "\n".toList)) (Token.Char '=') 0 0) =
      [Token.String ("he said ".toList ++ [DQUOTE] ++ "hi".toList ++ [DQUOTE])] ∧
    emit 1 (Lexer.mk (DQUOTE :: (escape DQUOTE ("he said ".toList ++ [DQUOTE] ++ "hi".toList ++
        [DQUOTE]) ++ DQUOTE :: "\n".toList)) (Token.Char '=') 0 0) =
      [Token.String ("he said ".toList ++ [DQUOTE] ++ "hi".toList ++ [DQUOTE])] :=
  ⟨((string_literal_payload DQUOTE (Or.inl rfl) (Lexer.mk (DQUOTE :: ("he said ".toList ++
      [BACKSLASH, DQUOTE] ++ "hi".toList ++ [BACKSLASH, DQUOTE] ++ DQUOTE :: "\n".toList))
      (Token.Char '=') 0 0) "\n".toList).1
      ("he said ".toList ++ [BACKSLASH, DQUOTE] ++ "hi".toList ++ [BACKSLASH, DQUOTE])
      (by decide) (by decide)).1,
   ((string_literal_payload DQUOTE (Or.inl rfl) (Lexer.mk (DQUOTE :: (escape DQUOTE
      ("he said ".toList ++ [DQUOTE] ++ "hi".toList ++ [DQUOTE]) ++ DQUOTE :: "\n".toList))
      (Token.Char '=') 0 0) "\n".toList).2
      ("he said ".toList ++ [DQUOTE] ++ "hi".toList ++ [DQUOTE]) rfl).1⟩


/-! ## Numbers -/

theorem le_foldl_decStep (ds : List Char) : ∀ v : Nat, v ≤ ds.foldl decStep v := by
  induction ds with
  | nil => intro v; exact le_refl _
  | cons c t ih =>
    intro v
    have h1 := ih (decStep v c)
    have h2 : v ≤ decStep v c := by unfold decStep; omega
    exact le_trans h2 h1

theorem isdigit_toNat {c : Char} (h : isdigit c = true) : 48 ≤ c.toNat ∧ c.toNat ≤ 57 := by
  simpa [isdigit] using h

theorem readDigits_run (rest : List Char) (hmax : ∀ y, rest.head? = some y → isdigit y = false)
    (ds : List Char) :
    ∀ v : Nat, (∀ x ∈ ds, isdigit x = true) → ds.foldl decStep v < 2147483648 →
      readDigits (v : Int) (ds ++ rest) = (((ds.foldl decStep v : Nat) : Int), rest) := by
  induction ds with
  | nil =>
    intro v _ _
    cases rest with
    | nil => rfl
    | cons y r =>
      have hy := hmax y rfl
      simp only [List.nil_append, readDigits, hy, Bool.false_eq_true, if_false, List.foldl_nil]
  | cons c t ih =>
    intro v hd hv
    have hc := hd c (List.mem_cons_self _ _)
    obtain ⟨c1, c2⟩ := isdigit_toNat hc
    have hle := le_foldl_decStep t (decStep v c)
    simp only [List.foldl_cons] at hv ⊢
    have hstep : wrapInt ((v : Int) * 10 + (toInt (some c) - 48)) = ((decStep v c : Nat) : Int) := by
      have hb : decStep v c < 2147483648 := lt_of_le_of_lt hle hv
      unfold decStep at hb ⊢
      unfold wrapInt toInt
      push_cast
      omega
    show readDigits (v : Int) (c :: (t ++ rest)) = _
    rw [readDigits, if_pos hc, hstep]
    exact ih (decStep v c) (fun x hx => hd x (List.mem_cons_of_mem _ hx)) hv

theorem tokenStage_number (lx : Lexer) (c : Char) (w rest : List Char)
    (hin : lx.input_ = c :: w ++ rest) (hc : isdigit c = true)
    (hw : ∀ x ∈ w, isdigit x = true) (hmax : ∀ y, rest.head? = some y → isdigit y = false)
    (hv : decimalValue (c :: w) < 2147483648) :
    tokenStage lx = .ret (Token.Number (decimalValue (c :: w))) { lx with input_ := rest } := by
  obtain ⟨c1, c2⟩ := isdigit_toNat hc
  have hla : toChar (peek lx.input_) = c := by rw [hin]; rfl
  have hsp : c ≠ ' ' := by intro h; rw [h] at hc; revert hc; decide
  have hus : (c == '_') = false := by
    rw [beq_eq_false_iff_ne]
    intro h; rw [h] at hc; revert hc; decide
  unfold tokenStage
  simp only []
  rw [skipSpaces_of_ne lx (by rw [hla]; exact hsp), hla, isdigit_not_ispunct hc,
    isdigit_not_isalpha hc, hus, hc]
  simp only [Bool.false_and, Bool.or_self, Bool.false_eq_true, if_false, if_true]
  unfold numberStage
  have hg1 : toInt (get lx.input_).1 - 48 = ((decStep 0 c : Nat) : Int) := by
    rw [hin]
    show ((c.toNat : Nat) : Int) - 48 = _
    unfold decStep
    push_cast
    omega
  have hg2 : (get lx.input_).2 = w ++ rest := by rw [hin]; rfl
  have hval : decimalValue (c :: w) = w.foldl decStep (decStep 0 c) := rfl
  rw [hval] at hv ⊢
  rw [hg1, hg2, readDigits_run rest hmax w (decStep 0 c) hw hv]

/-- C9, as amended: for every non-empty maximal run of decimal digits at the
lookahead whose base 10 value `v` is below 2^31 (any length, leading zeros
allowed), the lexer consumes exactly that run and emits `Number(v)`, after the
`Dedent` tokens that are pending. -/
theorem number_maximal_run (lx : Lexer) (c : Char) (w rest : List Char)
    (hin : lx.input_ = c :: w ++ rest) (hc : isdigit c = true)
    (hw : ∀ x ∈ w, isdigit x = true) (hmax : ∀ y, rest.head? = some y → isdigit y = false)
    (hv : decimalValue (c :: w) < 2147483648) :
    emit (pendingDedents lx + 1) lx =
      List.replicate (pendingDedents lx) Token.Dedent ++ [Token.Number (decimalValue (c :: w))] ∧
    (advance (pendingDedents lx) lx).input_ = lx.input_ ∧
    (advance (pendingDedents lx + 1) lx).input_ = rest := by
  have hla : toChar (peek lx.input_) = c := by rw [hin]; rfl
  have f1 : c ≠ EOFc := by intro h; rw [h] at hc; revert hc; decide
  have f2 : c ≠ '\n' := by intro h; rw [h] at hc; revert hc; decide
  have f3 : c ≠ ' ' := by intro h; rw [h] at hc; revert hc; decide
  exact emit_ordinary lx _ rest (by rw [hla]; exact f1) (by rw [hla]; exact f2)
    (by rw [hla]; exact f3)
    (fun lx1 h1 => tokenStage_number lx1 c w rest (by rw [h1, hin]) hc hw hmax hv)

/-- Witness for C9: `007` followed by a line feed is `Number(7)`. -/
theorem number_maximal_run_witness :
    emit 1 (Lexer.mk "007\n".toList (Token.Char '=') 0 0) = [Token.Number 7] :=
  (number_maximal_run (Lexer.mk "007\n".toList (Token.Char '=') 0 0) '0' "07".toList "\n".toList
    rfl (by decide) (by decide) (by decide) (by decide)).1

/-- Counterexample to C9 as stated: the run `2147483648` denotes 2^31, which
the `int` payload of `Number` cannot hold; the token emitted is
`Number(-2147483648)`. -/
theorem number_overflow :
    decimalValue "2147483648".toList = 2147483648 ∧
    tokens "2147483648".toList 1 = [Token.Number (-2147483648)] ∧
    tokens "2147483648".toList 1 ≠ [Token.Number (decimalValue "2147483648".toList)] := by
  decide


/-! ## Lines that produce no token -/

theorem skipRun_spaces (n : Nat) (c : Char) (tail : List Char) (hc : c ≠ ' ') :
    skipRun ' ' (List.replicate (n + 1) ' ' ++ c :: tail) = c :: tail := by
  unfold skipRun get
  show List.dropWhile (fun c => c == ' ') (List.replicate n ' ' ++ c :: tail) = c :: tail
  rw [List.dropWhile_append_of_pos (by intro x hx; rw [List.eq_of_mem_replicate hx]; rfl)]
  rw [List.dropWhile_cons_of_neg (by simpa using hc)]

theorem GetLine_line (cm rest : List Char) (hcm : ∀ x ∈ cm, x ≠ '\n') :
    GetLine (cm ++ '\n' :: rest) = rest := by
  unfold GetLine
  rw [List.dropWhile_append_of_pos (by intro x hx; simpa using hcm x hx)]
  rw [List.dropWhile_cons_of_neg (by simp)]
  rfl

/-- After a `Newline`, one or more spaces followed by `#` or by a line feed
make `LoadToken` discard the line and call itself (lines 169-172). -/
theorem spaces_then_skipped (lx : Lexer) (hN : lx.current_token_ = Token.Newline) (n : Nat)
    (c : Char) (hc : c = '#' ∨ c = '\n') (tail : List Char) :
    LoadToken { lx with input_ := List.replicate (n + 1) ' ' ++ c :: tail } =
      LoadToken { lx with input_ := GetLine (c :: tail) } := by
  have hsp : c ≠ ' ' := by rcases hc with h | h <;> rw [h] <;> decide
  apply LoadToken_again
  have hla : toChar (peek (List.replicate (n + 1) ' ' ++ c :: tail)) = ' ' := rfl
  unfold LoadTokenBody
  simp only []
  rw [hla, if_neg (by decide), if_neg (by decide)]
  unfold indentStage
  simp only []
  rw [if_pos hN, hla, if_pos rfl, skipRun_spaces n c _ hsp, toChar_peek_cons, if_pos hc]

/-- After a `Newline` at depth 0, a `#` at the start of a line makes
`LoadToken` discard the line and call itself (lines 207-210). -/
theorem comment_at_depth_zero_skipped (lx : Lexer) (hN : lx.current_token_ = Token.Newline)
    (hd : lx.dent_ ≤ 0) (tail : List Char) :
    LoadToken { lx with input_ := '#' :: tail } = LoadToken { lx with input_ := GetLine tail } := by
  have g1 : ('#' : Char) ≠ EOFc := by decide
  have g2 : ('#' : Char) ≠ '\n' := by decide
  have g3 : ('#' : Char) ≠ ' ' := by decide
  have g4 : (ispunct '#' && '#' != '_') = true := by decide
  have g5 : ('#' : Char) ≠ DQUOTE := by decide
  have g6 : ('#' : Char) ≠ SQUOTE := by decide
  apply LoadToken_again
  rw [LoadTokenBody_ordinary { lx with input_ := '#' :: tail } g1 g2 g3]
  rw [if_neg (fun h => by have := h.2; simp only [] at this; omega),
    if_neg (fun h => by have := h.1; simp only [] at this; rw [hN] at this; cases this)]
  unfold tokenStage
  simp only []
  rw [skipSpaces_of_ne { lx with input_ := '#' :: tail } g3]
  show (if (ispunct '#' && '#' != '_') = true then _ else _) = _
  rw [if_pos g4]
  unfold punctStage
  simp only []
  show (if ('#' : Char) = DQUOTE then _ else if ('#' : Char) = SQUOTE then _
    else if ('#' : Char) = '#' then _ else _) = _
  rw [if_neg g5, if_neg g6, if_pos rfl, if_neg (by simpa using hN)]
  rfl

/-- After a `Newline`, an empty line is consumed by the loop of lines 153-155
and the call goes on as if it had started behind it. -/
theorem empty_line_skipped (lx : Lexer) (hN : lx.current_token_ = Token.Newline)
    (rest : List Char) :
    LoadToken { lx with input_ := '\n' :: rest } = LoadToken { lx with input_ := rest } := by
  have hbody : LoadTokenBody { lx with input_ := '\n' :: rest } =
      LoadTokenBody { lx with input_ := rest } := by
    have hl : LoadTokenBody { lx with input_ := '\n' :: rest } =
        indentStage { lx with input_ := List.dropWhile (fun c => c == '\n') rest } := by
      unfold LoadTokenBody
      simp only [toChar_peek_cons]
      rw [if_neg (by decide), if_pos trivial, if_pos hN]
      rfl
    rw [hl]
    by_cases h1 : toChar (peek rest) = EOFc
    · have hdw : List.dropWhile (fun c => c == '\n') rest = rest := by
        cases rest with
        | nil => rfl
        | cons y r =>
          have hy : y = EOFc := h1
          rw [List.dropWhile_cons_of_neg (by rw [hy]; decide)]
      rw [hdw]
      unfold LoadTokenBody indentStage
      simp only []
      rw [if_pos h1, if_pos hN, h1, if_neg (by decide)]
      by_cases hd : lx.dent_ > 0
      · rw [if_pos hd, if_pos hd]
      · rw [if_neg hd, if_neg hd, if_pos (Or.inl hN)]
        unfold dedentStage
        rw [if_neg (fun h => by have := h.1; simp only [] at this; rw [hN] at this; cases this)]
        unfold tokenStage
        simp only []
        rw [skipSpaces_of_ne _ (by simp only []; rw [h1]; decide)]
        simp only []
        rw [h1, if_neg (by decide), if_neg (by decide), if_neg (by decide)]
    · by_cases h2 : toChar (peek rest) = '\n'
      · cases rest with
        | nil => exact absurd rfl h1
        | cons y r =>
          have hy : y = '\n' := h2
          subst hy
          unfold LoadTokenBody
          simp only [toChar_peek_cons]
          rw [if_neg (by decide), if_pos trivial, if_pos hN]
          rfl
      · have hdw : List.dropWhile (fun c => c == '\n') rest = rest := by
          cases rest with
          | nil => rfl
          | cons y r =>
            have hy : y ≠ '\n' := h2
            rw [List.dropWhile_cons_of_neg (by simpa using hy)]
        rw [hdw]
        unfold LoadTokenBody
        simp only []
        rw [if_neg h1, if_neg h2]
  rw [LoadToken_eq, LoadToken_eq { lx with input_ := rest }, hbody]

/-- Blank lines and most comment-only lines produce no token: after a
`Newline`, a line of `n` spaces, or of `n` spaces and a `#` comment where
`n > 0` or no indentation is pending, is skipped, so that the call returns
the token and the state it would return without the line.  The case left out
is a `#` at column 0 while indentation is pending. -/
theorem blank_and_comment_lines_skipped (lx : Lexer) (hN : lx.current_token_ = Token.Newline)
    (n : Nat) (cm rest : List Char) (hcm : ∀ x ∈ cm, x ≠ '\n') :
    LoadToken { lx with input_ := List.replicate n ' ' ++ '\n' :: rest } =
      LoadToken { lx with input_ := rest } ∧
    (0 < n ∨ lx.dent_ ≤ 0 →
      LoadToken { lx with input_ := List.replicate n ' ' ++ '#' :: (cm ++ '\n' :: rest) } =
        LoadToken { lx with input_ := rest }) := by
  cases n with
  | zero =>
    refine ⟨empty_line_skipped lx hN rest, fun h => ?_⟩
    have hd : lx.dent_ ≤ 0 := by
      rcases h with h | h
      · exact absurd h (Nat.lt_irrefl 0)
      · exact h
    have := comment_at_depth_zero_skipped lx hN hd (cm ++ '\n' :: rest)
    rw [GetLine_line cm rest hcm] at this
    exact this
  | succ n =>
    refine ⟨?_, fun _ => ?_⟩
    · have := spaces_then_skipped lx hN n '\n' (Or.inr rfl) rest
      have hg : GetLine ('\n' :: rest) = rest := GetLine_line [] rest (by simp)
      rw [hg] at this
      exact this
    · have := spaces_then_skipped lx hN n '#' (Or.inl rfl) (cm ++ '\n' :: rest)
      have hg : GetLine ('#' :: (cm ++ '\n' :: rest)) = rest :=
        GetLine_line ('#' :: cm) rest (by
          intro x hx
          rcases List.mem_cons.mp hx with h1 | h1
          · rw [h1]; decide
          · exact hcm x h1)
      rw [hg] at this
      exact this

/-! ## `Eof` from the end-of-input branch -/

/-- When the stream is exhausted before the call that returns `Eof`, that
`Eof` comes from the end-of-input branch (lines 139-148) and the tokens up to
and including it hold as many `Dedent` as `Indent` tokens. -/
theorem eof_of_exhausted_stream_balanced (input : List Char) (n : Nat)
    (hin : (advance n (initial input)).input_ = [])
    (ht : (advance (n + 1) (initial input)).current_token_ = Token.Eof) :
    (tokens input (n + 1)).count Token.Indent = (tokens input (n + 1)).count Token.Dedent := by
  obtain ⟨e1, e2, _⟩ := emit_balance n (initial input) (le_refl _) (le_refl _)
  have h0 : (initial input).dent_ = 0 := rfl
  rw [h0] at e1
  rw [advance_succ] at ht
  have hd : ¬ 0 < (advance n (initial input)).dent_ := by
    intro hpos
    rw [NextToken_nil_pos _ hin hpos] at ht
    cases ht
  unfold tokens
  rw [emit_add n 1]
  have h1 : emit 1 (advance n (initial input)) = [Token.Eof] := by
    simp only [emit, ht]
  rw [h1, List.count_append, List.count_append]
  have c1 : List.count Token.Indent [Token.Eof] = 0 := by decide
  have c2 : List.count Token.Dedent [Token.Eof] = 0 := by decide
  rw [c1, c2]
  omega

/-! ## Indentation transitions -/

/-- C2 at the input of two lines `  x` and `  ` (the last one without a line
feed): the first `Eof` follows one `Indent` and no `Dedent`; the `Dedent`
comes after it. -/
theorem eof_before_dedent :
    tokens "  x\n  ".toList 6 =
      [Token.Indent, Token.Id "x".toList, Token.Newline, Token.Eof, Token.Dedent, Token.Eof] ∧
    (tokens "  x\n  ".toList 4).count Token.Indent = 1 ∧
    (tokens "  x\n  ".toList 4).count Token.Dedent = 0 := by
  decide

/-- C4 at an indented block of two lines with and without a comment line at
column 0 between them: the comment line adds `Dedent`, `Newline`, `Indent`. -/
theorem comment_line_in_block :
    tokens "  a\n  b\n".toList 7 =
      [Token.Indent, Token.Id "a".toList, Token.Newline, Token.Id "b".toList, Token.Newline,
        Token.Dedent, Token.Eof] ∧
    tokens "  a\n#c\n  b\n".toList 10 =
      [Token.Indent, Token.Id "a".toList, Token.Newline, Token.Dedent, Token.Newline,
        Token.Indent, Token.Id "b".toList, Token.Newline, Token.Dedent, Token.Eof] := by
  decide

/-- C8 at the input of an opening double quote followed by `abc`: the payload
is `abc` followed by the character `EOFc`. -/
theorem unterminated_string_payload :
    tokens (DQUOTE :: "abc".toList) 1 = [Token.String ("abc".toList ++ [EOFc])] ∧
    EOFc.toNat = 255 := by
  decide

/-- C19 at the input of the single line `  x  ` without a line feed: the
`Eof` after `x` is followed by `Dedent`. -/
theorem eof_not_absorbing :
    tokens "  x  ".toList 5 =
      [Token.Indent, Token.Id "x".toList, Token.Eof, Token.Dedent, Token.Eof] := by
  decide

end parse

namespace runtime

/-! ## Truthiness -/

/-- C10: `IsTrue` is total over the value variants and never fails: false for
the empty holder, `n != 0` for `Number(n)`, non-emptiness for `String(s)`, `b`
for `Bool(b)`, and false for every `Class` and every `ClassInstance`, whatever
methods its class has. -/
theorem IsTrue_total :
    IsTrue none = false ∧
    (∀ n : Int, IsTrue (some (Object.Number n)) = decide (n ≠ 0)) ∧
    (∀ s : String, IsTrue (some (Object.String s)) = decide (s ≠ "")) ∧
    (∀ b : Bool, IsTrue (some (Object.Bool b)) = b) ∧
    (∀ c : Class, IsTrue (some (Object.Class c)) = false) ∧
    (∀ (c : Class) (f : List (String × Option Object)),
      IsTrue (some (Object.ClassInstance c f)) = false) := by
  refine ⟨rfl, ?_, ?_, fun _ => rfl, fun _ => rfl, fun _ _ => rfl⟩
  · intro n
    show (n != 0) = decide (n ≠ 0)
    by_cases h : n = 0
    · subst h; rfl
    · rw [decide_eq_true h]
      exact bne_iff_ne.mpr h
  · intro s
    show (!s.isEmpty) = decide (s ≠ "")
    by_cases h : s = ""
    · subst h; rfl
    · rw [decide_eq_true h, Bool.eq_false_iff.mpr (fun he => h ((String.isEmpty_iff s).mp he))]
      rfl


/-! ## Method resolution -/

theorem find?_first (methods : List Method) (name : String) (pre post : List Method)
    (m : Method) (h : methods = pre ++ m :: post) (hm : m.name = name)
    (hpre : ∀ x ∈ pre, x.name ≠ name) :
    methods.find? (fun method => method.name == name) = some m := by
  subst h
  induction pre with
  | nil => simp [List.find?, hm]
  | cons x pre ih =>
    have hx : x.name ≠ name := hpre x (List.mem_cons_self _ _)
    have : (x.name == name) = false := by simpa using hx
    simp only [List.cons_append, List.find?, this]
    exact ih (fun y hy => hpre y (List.mem_cons_of_mem _ hy))

theorem find?_none_of_not_declared (methods : List Method) (name : String)
    (h : ∀ x ∈ methods, x.name ≠ name) :
    methods.find? (fun method => method.name == name) = none := by
  rw [List.find?_eq_none]
  intro x hx
  simpa using h x hx

theorem GetMethod_mk (name_cl_ : String) (cl_methods_ : List Method)
    (cl_parent_ : Option Class) (name : String) :
    (Class.mk name_cl_ cl_methods_ cl_parent_).GetMethod name =
      match cl_methods_.find? (fun method => method.name == name) with
      | some m => some m
      | none =>
        match cl_parent_ with
        | some parent => parent.GetMethod name
        | none => none := by
  cases cl_parent_ <;> rw [Class.GetMethod]

theorem GetMethod_own (name_cl_ : String) (cl_methods_ : List Method)
    (cl_parent_ : Option Class) (name : String) (pre post : List Method) (m : Method)
    (h : cl_methods_ = pre ++ m :: post) (hm : m.name = name)
    (hpre : ∀ x ∈ pre, x.name ≠ name) :
    (Class.mk name_cl_ cl_methods_ cl_parent_).GetMethod name = some m := by
  rw [GetMethod_mk, find?_first cl_methods_ name pre post m h hm hpre]

theorem GetMethod_inherited (name_cl_ : String) (cl_methods_ : List Method)
    (cl_parent_ : Option Class) (name : String) (h : ∀ x ∈ cl_methods_, x.name ≠ name) :
    (Class.mk name_cl_ cl_methods_ cl_parent_).GetMethod name =
      match cl_parent_ with
      | some parent => parent.GetMethod name
      | none => none := by
  rw [GetMethod_mk, find?_none_of_not_declared cl_methods_ name h]

theorem GetMethod_name : ∀ (c : Class) (name : String) (m : Method),
    c.GetMethod name = some m → m.name = name
  | .mk n ms none, name, m, h => by
    rw [GetMethod_mk] at h
    cases hf : ms.find? (fun method => method.name == name) with
    | some x =>
      rw [hf] at h
      have := List.find?_some hf
      cases h
      simpa using this
    | none => rw [hf] at h; cases h
  | .mk n ms (some p), name, m, h => by
    rw [GetMethod_mk] at h
    cases hf : ms.find? (fun method => method.name == name) with
    | some x =>
      rw [hf] at h
      have := List.find?_some hf
      cases h
      simpa using this
    | none =>
      rw [hf] at h
      exact GetMethod_name p name m h

theorem GetMethod_isSome_iff : ∀ (c : Class) (name : String),
    (c.GetMethod name).isSome = true ↔ ∃ k ∈ c.chain, ∃ m ∈ k.methods, m.name = name
  | .mk n ms none, name => by
    rw [GetMethod_mk, Class.chain]
    cases hf : ms.find? (fun method => method.name == name) with
    | some x =>
      have h1 := List.find?_some hf
      have h2 := List.mem_of_find?_eq_some hf
      simp only [Option.isSome_some, true_iff]
      exact ⟨_, List.mem_cons_self _ _, x, h2, by simpa using h1⟩
    | none =>
      rw [List.find?_eq_none] at hf
      simp only [Option.isSome_none, Bool.false_eq_true, false_iff]
      rintro ⟨k, hk, m, hm, hn⟩
      rw [List.mem_singleton] at hk
      subst hk
      exact hf m hm (by simpa using hn)
  | .mk n ms (some p), name => by
    have ih := GetMethod_isSome_iff p name
    rw [GetMethod_mk, Class.chain]
    cases hf : ms.find? (fun method => method.name == name) with
    | some x =>
      have h1 := List.find?_some hf
      have h2 := List.mem_of_find?_eq_some hf
      simp only [Option.isSome_some, true_iff]
      exact ⟨_, List.mem_cons_self _ _, x, h2, by simpa using h1⟩
    | none =>
      rw [List.find?_eq_none] at hf
      simp only []
      rw [ih]
      constructor
      · rintro ⟨k, hk, hm⟩
        exact ⟨k, List.mem_cons_of_mem _ hk, hm⟩
      · rintro ⟨k, hk, m, hm, hn⟩
        rcases List.mem_cons.mp hk with h | h
        · subst h
          exact absurd (by simpa using hn) (hf m hm)
        · exact ⟨k, h, m, hm, hn⟩

/-- C15: for every class and every name `GetMethod` terminates (it is a total
function on the finite parent chain) and returns the first method of that
name in the class's own list, in declaration order, if there is one;
otherwise the result of `GetMethod` on the parent; otherwise not-found.  So a
class's own method wins over any ancestor's, and a method is found iff some
class on the chain declares the name. -/
theorem GetMethod_resolution (name_cl_ : String) (cl_methods_ : List Method)
    (cl_parent_ : Option Class) (name : String) :
    (∀ (pre post : List Method) (m : Method), cl_methods_ = pre ++ m :: post → m.name = name →
      (∀ x ∈ pre, x.name ≠ name) →
      (Class.mk name_cl_ cl_methods_ cl_parent_).GetMethod name = some m) ∧
    ((∀ x ∈ cl_methods_, x.name ≠ name) →
      (Class.mk name_cl_ cl_methods_ cl_parent_).GetMethod name =
        match cl_parent_ with
        | some parent => parent.GetMethod name
        | none => none) ∧
    (((Class.mk name_cl_ cl_methods_ cl_parent_).GetMethod name).isSome = true ↔
      ∃ k ∈ (Class.mk name_cl_ cl_methods_ cl_parent_).chain, ∃ m ∈ k.methods, m.name = name) :=
  ⟨fun pre post m h hm hpre => GetMethod_own name_cl_ cl_methods_ cl_parent_ name pre post m h hm hpre,
   GetMethod_inherited name_cl_ cl_methods_ cl_parent_ name,
   GetMethod_isSome_iff _ name⟩

/-- Witness for C15: a class and its parent both declare `m`; the class's own
version (body 2) is selected. -/
theorem GetMethod_resolution_witness :
    (Class.mk "B" [Method.mk "n" [] 1, Method.mk "m" ["y"] 2, Method.mk "m" [] 3]
      (some (Class.mk "A" [Method.mk "m" [] 0] none))).GetMethod "m" =
      some (Method.mk "m" ["y"] 2) :=
  (GetMethod_resolution "B" [Method.mk "n" [] 1, Method.mk "m" ["y"] 2, Method.mk "m" [] 3]
    (some (Class.mk "A" [Method.mk "m" [] 0] none)) "m").1
    [Method.mk "n" [] 1] [Method.mk "m" [] 3] (Method.mk "m" ["y"] 2) rfl rfl (by decide)


/-! ## `HasMethod` and `Call` -/

theorem HasMethod_iff (inst_class_ : Class) (method : String) (k : Nat) :
    HasMethod inst_class_ method k = true ↔
      ∃ m, inst_class_.GetMethod method = some m ∧ m.formal_params.length = k := by
  unfold HasMethod
  cases h : inst_class_.GetMethod method with
  | none => simp
  | some m => simp

theorem Call_not_found {W : Type} (exec : Executor W) (inst_class_ : Class)
    (inst_fields_ : Closure) (method : String) (actual_args : List ObjectHolder) (w : W)
    (h : HasMethod inst_class_ method actual_args.length = false) :
    Call exec inst_class_ inst_fields_ method actual_args w =
      (Result.throw ("Cannot call " ++ method), w) := by
  unfold Call
  rw [h]
  rfl

theorem Call_found {W : Type} (exec : Executor W) (inst_class_ : Class)
    (inst_fields_ : Closure) (method : String) (actual_args : List ObjectHolder) (w : W)
    (m : Method) (hm : inst_class_.GetMethod method = some m)
    (hk : m.formal_params.length = actual_args.length) :
    Call exec inst_class_ inst_fields_ method actual_args w =
      exec m.body (bindParams m.formal_params actual_args
        [("self", some (Object.ClassInstance inst_class_ inst_fields_))]) w := by
  have h : HasMethod inst_class_ method actual_args.length = true :=
    (HasMethod_iff _ _ _).mpr ⟨m, hm, hk⟩
  unfold Call
  rw [h, hm]
  rfl

/-- C16: `HasMethod(name, k)` is true iff `GetMethod(name)` resolves on the
instance's class and the resolved method has exactly `k` formal parameters,
so a method of that name and another arity in the class hides an ancestor's
method of arity `k`.  `Call(name, args)` fails with the method-not-found error
`Cannot call name`, with no method body executed and the world (the fields
of the instance included) unchanged, iff `HasMethod(name, |args|)` is false;
otherwise it executes the body of the resolved method exactly once and its
result is that body's result. -/
theorem HasMethod_and_Call {W : Type} (exec : Executor W) (inst_class_ : Class)
    (inst_fields_ : Closure) (method : String) (actual_args : List ObjectHolder) (w : W)
    (tr : List (Nat × Closure)) :
    (∀ k, HasMethod inst_class_ method k = true ↔
      ∃ m, inst_class_.GetMethod method = some m ∧ m.formal_params.length = k) ∧
    (∀ (n : String) (ms pre post : List Method) (parent : Option Class) (m : Method) (k : Nat),
      inst_class_ = Class.mk n ms parent → ms = pre ++ m :: post → m.name = method →
      (∀ x ∈ pre, x.name ≠ method) → m.formal_params.length ≠ k →
      HasMethod inst_class_ method k = false) ∧
    (HasMethod inst_class_ method actual_args.length = false ↔
      Call (traced exec) inst_class_ inst_fields_ method actual_args (w, tr) =
        (Result.throw ("Cannot call " ++ method), (w, tr))) ∧
    (HasMethod inst_class_ method actual_args.length = true →
      ∃ m, inst_class_.GetMethod method = some m ∧
        Call (traced exec) inst_class_ inst_fields_ method actual_args (w, tr) =
          ((exec m.body (bindParams m.formal_params actual_args
              [("self", some (Object.ClassInstance inst_class_ inst_fields_))]) w).1,
           ((exec m.body (bindParams m.formal_params actual_args
              [("self", some (Object.ClassInstance inst_class_ inst_fields_))]) w).2,
            tr ++ [(m.body, bindParams m.formal_params actual_args
              [("self", some (Object.ClassInstance inst_class_ inst_fields_))])]))) := by
  have found : HasMethod inst_class_ method actual_args.length = true →
      ∃ m, inst_class_.GetMethod method = some m ∧
        Call (traced exec) inst_class_ inst_fields_ method actual_args (w, tr) =
          ((exec m.body (bindParams m.formal_params actual_args
              [("self", some (Object.ClassInstance inst_class_ inst_fields_))]) w).1,
           ((exec m.body (bindParams m.formal_params actual_args
              [("self", some (Object.ClassInstance inst_class_ inst_fields_))]) w).2,
            tr ++ [(m.body, bindParams m.formal_params actual_args
              [("self", some (Object.ClassInstance inst_class_ inst_fields_))])])) := by
    intro h
    obtain ⟨m, hm, hk⟩ := (HasMethod_iff _ _ _).mp h
    exact ⟨m, hm, by rw [Call_found (traced exec) _ _ _ _ _ m hm hk]; rfl⟩
  refine ⟨HasMethod_iff inst_class_ method, ?_, ?_, found⟩
  · intro n ms pre post parent m k hc hms hname hpre hk
    subst hc
    have hg := GetMethod_own n ms parent method pre post m hms hname hpre
    cases hh : HasMethod (Class.mk n ms parent) method k with
    | false => rfl
    | true =>
      obtain ⟨m1, hm1, hk1⟩ := (HasMethod_iff _ _ _).mp hh
      rw [hg] at hm1
      cases hm1
      exact absurd hk1 hk
  · constructor
    · intro h
      exact Call_not_found (traced exec) _ _ _ _ _ h
    · intro h
      cases hh : HasMethod inst_class_ method actual_args.length with
      | false => rfl
      | true =>
        obtain ⟨m, _, hc⟩ := found hh
        rw [hc] at h
        have hlen := congrArg (fun r => r.2.2.length) h
        simp at hlen

/-- Witness for C16: the class's own `m` of arity 1 hides the parent's `m` of
arity 0, so `Call("m", [])` fails with `Cannot call m`. -/
theorem HasMethod_and_Call_witness :
    Call (traced (fun _ _ (w : Unit) => (Result.ret none, w)))
        (Class.mk "B" [Method.mk "m" ["y"] 2] (some (Class.mk "A" [Method.mk "m" [] 0] none)))
        [] "m" [] ((), []) =
      (Result.throw ("Cannot call " ++ "m"), ((), [])) :=
  (HasMethod_and_Call (fun _ _ (w : Unit) => (Result.ret none, w))
    (Class.mk "B" [Method.mk "m" ["y"] 2] (some (Class.mk "A" [Method.mk "m" [] 0] none)))
    [] "m" [] () []).2.2.1.mp (by decide)


/-! ## `Equal` and `Less` -/

/-- C11: `None` is equal only to `None` and is never ordered.
`Equal(None, None)` returns true; for every value `v` that is not `None`
(primitive, class or instance, whatever methods it has) `Equal(None, v)` and
`Equal(v, None)` throw a comparison error; `Less(a, b)` throws a comparison
error whenever `a` or `b` is `None`.  In each case no method body is executed
(nothing is recorded) and the world is unchanged. -/
theorem none_comparisons {W : Type} (exec : Executor W) (w : W) (tr : List (Nat × Closure))
    (v : Object) (x : ObjectHolder) :
    Equal (traced exec) none none (w, tr) = (Result.ret true, (w, tr)) ∧
    Equal (traced exec) none (some v) (w, tr) =
      (Result.throw "Cannot compare objects for equality in general", (w, tr)) ∧
    Equal (traced exec) (some v) none (w, tr) =
      (Result.throw "Cannot compare objects for equality with None", (w, tr)) ∧
    Less (traced exec) none x (w, tr) =
      (Result.throw "Cannot compare objects for less", (w, tr)) ∧
    Less (traced exec) x none (w, tr) =
      (Result.throw "Cannot compare objects for less", (w, tr)) := by
  refine ⟨rfl, rfl, ?_, ?_, ?_⟩
  · cases v <;> rfl
  · cases x <;> rfl
  · cases x with
    | none => rfl
    | some o => cases o <;> rfl

theorem Equal_instance {W : Type} (exec : Executor W) (inst_class_ : Class)
    (inst_fields_ : Closure) (r : Object) (w : W) :
    Equal exec (some (Object.ClassInstance inst_class_ inst_fields_)) (some r) w =
      if HasMethod inst_class_ "__eq__" 1 then
        (boolPayload (Call exec inst_class_ inst_fields_ "__eq__" [some r] w).1,
          (Call exec inst_class_ inst_fields_ "__eq__" [some r] w).2)
      else (Result.throw "Cannot compare objects for equality in general", w) := by
  rfl

theorem Less_instance {W : Type} (exec : Executor W) (inst_class_ : Class)
    (inst_fields_ : Closure) (r : Object) (w : W) :
    Less exec (some (Object.ClassInstance inst_class_ inst_fields_)) (some r) w =
      if HasMethod inst_class_ "__lt__" 1 then
        (boolPayload (Call exec inst_class_ inst_fields_ "__lt__" [some r] w).1,
          (Call exec inst_class_ inst_fields_ "__lt__" [some r] w).2)
      else (Result.throw "Cannot compare objects for less", w) := by
  rfl

theorem HasMethod_false_of_arity (inst_class_ : Class) (method : String) (k : Nat)
    (h : ∀ m, inst_class_.GetMethod method = some m → m.formal_params.length ≠ k) :
    HasMethod inst_class_ method k = false := by
  cases hh : HasMethod inst_class_ method k with
  | false => rfl
  | true =>
    obtain ⟨m, hm, hk⟩ := (HasMethod_iff _ _ _).mp hh
    exact absurd hk (h m hm)

theorem Closure.get_set_ne (c : Closure) (key k : String) (v : ObjectHolder) (h : k ≠ key) :
    (c.set key v).get k = c.get k := by
  induction c with
  | nil =>
    have hb : (k == key) = false := beq_eq_false_iff_ne.mpr h
    simp [Closure.set, Closure.get, List.lookup, hb]
  | cons e rest ih =>
    obtain ⟨k1, v1⟩ := e
    unfold Closure.get at ih ⊢
    by_cases hk : k1 = key
    · subst hk
      have hb : (k == k1) = false := beq_eq_false_iff_ne.mpr h
      simp [Closure.set, List.lookup, hb]
    · simp only [Closure.set, hk, if_false, List.lookup]
      cases hkk : k == k1 with
      | true => rfl
      | false => exact ih

theorem Closure.get_set_self (c : Closure) (key : String) (v : ObjectHolder) :
    (c.set key v).get key = some v := by
  induction c with
  | nil => simp [Closure.set, Closure.get, List.lookup]
  | cons e rest ih =>
    obtain ⟨k1, v1⟩ := e
    unfold Closure.get at ih ⊢
    by_cases hk : k1 = key
    · subst hk
      simp [Closure.set, List.lookup]
    · have hb : (key == k1) = false := beq_eq_false_iff_ne.mpr (fun h => hk h.symm)
      simp only [Closure.set, hk, if_false, List.lookup, hb]
      exact ih

/-- The closure that `Call` builds for a method with the single formal
parameter `p`: `p` is bound to the argument, `self` to the receiver unless `p`
is `self`, and no other name is bound. -/
theorem Closure.one_parameter (receiver argument : ObjectHolder) (p : String) :
    (Closure.set [("self", receiver)] p argument).get p = some argument ∧
    (p ≠ "self" → (Closure.set [("self", receiver)] p argument).get "self" = some receiver) ∧
    (∀ k : String, k ≠ p → k ≠ "self" →
      (Closure.set [("self", receiver)] p argument).get k = none) := by
  refine ⟨Closure.get_set_self _ p argument, ?_, ?_⟩
  · intro h
    rw [Closure.get_set_ne _ p "self" argument (fun hh => h hh.symm)]
    rfl
  · intro k hk hs
    rw [Closure.get_set_ne _ p k argument hk]
    have hb : (k == "self") = false := beq_eq_false_iff_ne.mpr hs
    simp [Closure.get, List.lookup, hb]

/-- The dispatch of a comparison to the method `name` of an instance: one
execution of the resolved body on the closure that `Call` builds. -/
theorem dispatch_found {W : Type} (exec : Executor W) (inst_class_ : Class)
    (inst_fields_ : Closure) (name : String) (r : Object) (w : W) (tr : List (Nat × Closure))
    (m : Method) (p : String) (hm : inst_class_.GetMethod name = some m)
    (hp : m.formal_params = [p]) :
    HasMethod inst_class_ name 1 = true ∧
    Call (traced exec) inst_class_ inst_fields_ name [some r] (w, tr) =
      ((exec m.body (Closure.set
          [("self", some (Object.ClassInstance inst_class_ inst_fields_))] p (some r)) w).1,
       ((exec m.body (Closure.set
          [("self", some (Object.ClassInstance inst_class_ inst_fields_))] p (some r)) w).2,
        tr ++ [(m.body, Closure.set
          [("self", some (Object.ClassInstance inst_class_ inst_fields_))] p (some r))])) := by
  have hk : m.formal_params.length = [some r].length := by rw [hp]; rfl
  refine ⟨(HasMethod_iff _ _ _).mpr ⟨m, hm, hk⟩, ?_⟩
  rw [Call_found (traced exec) _ _ _ _ _ m hm hk, hp]
  rfl

theorem Equal_dispatch {W : Type} (exec : Executor W) (inst_class_ : Class)
    (inst_fields_ : Closure) (r : Object) (w : W) (tr : List (Nat × Closure))
    (m : Method) (p : String) (hm : inst_class_.GetMethod "__eq__" = some m)
    (hp : m.formal_params = [p]) :
    Equal (traced exec) (some (Object.ClassInstance inst_class_ inst_fields_)) (some r) (w, tr) =
      (boolPayload (exec m.body (Closure.set
          [("self", some (Object.ClassInstance inst_class_ inst_fields_))] p (some r)) w).1,
       ((exec m.body (Closure.set
          [("self", some (Object.ClassInstance inst_class_ inst_fields_))] p (some r)) w).2,
        tr ++ [(m.body, Closure.set
          [("self", some (Object.ClassInstance inst_class_ inst_fields_))] p (some r))])) := by
  obtain ⟨h1, h2⟩ := dispatch_found exec inst_class_ inst_fields_ "__eq__" r w tr m p hm hp
  rw [Equal_instance, if_pos h1, h2]

theorem Less_dispatch {W : Type} (exec : Executor W) (inst_class_ : Class)
    (inst_fields_ : Closure) (r : Object) (w : W) (tr : List (Nat × Closure))
    (m : Method) (p : String) (hm : inst_class_.GetMethod "__lt__" = some m)
    (hp : m.formal_params = [p]) :
    Less (traced exec) (some (Object.ClassInstance inst_class_ inst_fields_)) (some r) (w, tr) =
      (boolPayload (exec m.body (Closure.set
          [("self", some (Object.ClassInstance inst_class_ inst_fields_))] p (some r)) w).1,
       ((exec m.body (Closure.set
          [("self", some (Object.ClassInstance inst_class_ inst_fields_))] p (some r)) w).2,
        tr ++ [(m.body, Closure.set
          [("self", some (Object.ClassInstance inst_class_ inst_fields_))] p (some r))])) := by
  obtain ⟨h1, h2⟩ := dispatch_found exec inst_class_ inst_fields_ "__lt__" r w tr m p hm hp
  rw [Less_instance, if_pos h1, h2]

/-- C13, as amended: for an instance `lhs` and a value `rhs` that is not
`None`: when method resolution on the class chain of `lhs` finds `__eq__` with
exactly one formal parameter `p`, `Equal(lhs, rhs)` executes the body of that
method exactly once, whatever the body does, on a closure that binds `p` to
`rhs`, binds `self` to `lhs` when `p` is not `self`, and binds no other name;
when the body returns a `Bool`, `Equal` returns its payload, and when the body
throws, `Equal` throws the same error.  When there is no `__eq__`, or it has
another arity, `Equal` throws a comparison error and executes nothing, also
when `rhs` is `lhs`.  `Less` does the same with `__lt__`. -/
theorem instance_comparison_dispatch {W : Type} (exec : Executor W) (inst_class_ : Class)
    (inst_fields_ : Closure) (r : Object) (w : W) (tr : List (Nat × Closure)) :
    (∀ (m : Method) (p : String),
      inst_class_.GetMethod "__eq__" = some m → m.formal_params = [p] →
      ∃ cl : Closure,
        cl.get p = some (some r) ∧
        (p ≠ "self" →
          cl.get "self" = some (some (Object.ClassInstance inst_class_ inst_fields_))) ∧
        (∀ k : String, k ≠ p → k ≠ "self" → cl.get k = none) ∧
        (Equal (traced exec) (some (Object.ClassInstance inst_class_ inst_fields_)) (some r)
          (w, tr)).2 = ((exec m.body cl w).2, tr ++ [(m.body, cl)]) ∧
        (∀ (b : Bool) (w1 : W), exec m.body cl w = (Result.ret (some (Object.Bool b)), w1) →
          Equal (traced exec) (some (Object.ClassInstance inst_class_ inst_fields_)) (some r)
            (w, tr) = (Result.ret b, (w1, tr ++ [(m.body, cl)]))) ∧
        (∀ (what : String) (w1 : W), exec m.body cl w = (Result.throw what, w1) →
          Equal (traced exec) (some (Object.ClassInstance inst_class_ inst_fields_)) (some r)
            (w, tr) = (Result.throw what, (w1, tr ++ [(m.body, cl)])))) ∧
    ((∀ m, inst_class_.GetMethod "__eq__" = some m → m.formal_params.length ≠ 1) →
      Equal (traced exec) (some (Object.ClassInstance inst_class_ inst_fields_)) (some r)
          (w, tr) =
        (Result.throw "Cannot compare objects for equality in general", (w, tr))) ∧
    (∀ (m : Method) (p : String),
      inst_class_.GetMethod "__lt__" = some m → m.formal_params = [p] →
      ∃ cl : Closure,
        cl.get p = some (some r) ∧
        (p ≠ "self" →
          cl.get "self" = some (some (Object.ClassInstance inst_class_ inst_fields_))) ∧
        (∀ k : String, k ≠ p → k ≠ "self" → cl.get k = none) ∧
        (Less (traced exec) (some (Object.ClassInstance inst_class_ inst_fields_)) (some r)
          (w, tr)).2 = ((exec m.body cl w).2, tr ++ [(m.body, cl)]) ∧
        (∀ (b : Bool) (w1 : W), exec m.body cl w = (Result.ret (some (Object.Bool b)), w1) →
          Less (traced exec) (some (Object.ClassInstance inst_class_ inst_fields_)) (some r)
            (w, tr) = (Result.ret b, (w1, tr ++ [(m.body, cl)]))) ∧
        (∀ (what : String) (w1 : W), exec m.body cl w = (Result.throw what, w1) →
          Less (traced exec) (some (Object.ClassInstance inst_class_ inst_fields_)) (some r)
            (w, tr) = (Result.throw what, (w1, tr ++ [(m.body, cl)])))) ∧
    ((∀ m, inst_class_.GetMethod "__lt__" = some m → m.formal_params.length ≠ 1) →
      Less (traced exec) (some (Object.ClassInstance inst_class_ inst_fields_)) (some r)
          (w, tr) =
        (Result.throw "Cannot compare objects for less", (w, tr))) := by
  refine ⟨?_, ?_, ?_, ?_⟩
  · intro m p hm hp
    obtain ⟨c1, c2, c3⟩ := Closure.one_parameter
      (some (Object.ClassInstance inst_class_ inst_fields_)) (some r) p
    have hd := Equal_dispatch exec inst_class_ inst_fields_ r w tr m p hm hp
    refine ⟨_, c1, c2, c3, ?_, ?_, ?_⟩
    · rw [hd]
    · intro b w1 hb
      rw [hd, hb]
      rfl
    · intro what w1 hb
      rw [hd, hb]
      rfl
  · intro h
    rw [Equal_instance, HasMethod_false_of_arity _ _ _ h]
    rfl
  · intro m p hm hp
    obtain ⟨c1, c2, c3⟩ := Closure.one_parameter
      (some (Object.ClassInstance inst_class_ inst_fields_)) (some r) p
    have hd := Less_dispatch exec inst_class_ inst_fields_ r w tr m p hm hp
    refine ⟨_, c1, c2, c3, ?_, ?_, ?_⟩
    · rw [hd]
    · intro b w1 hb
      rw [hd, hb]
      rfl
    · intro what w1 hb
      rw [hd, hb]
      rfl
  · intro h
    rw [Less_instance, HasMethod_false_of_arity _ _ _ h]
    rfl

/-- Witness for C13 as amended: an instance whose class declares
`__eq__(other)` with a body that returns `Bool(true)`, compared with itself:
one execution, on a closure that binds `other` and `self` to the instance, and
the result is true. -/
theorem instance_comparison_dispatch_witness :
    ∃ cl : Closure,
      cl.get "other" = some (some (Object.ClassInstance
        (Class.mk "A" [Method.mk "__eq__" ["other"] 5] none) [])) ∧
      cl.get "self" = some (some (Object.ClassInstance
        (Class.mk "A" [Method.mk "__eq__" ["other"] 5] none) [])) ∧
      Equal (traced (fun _ _ (w : Unit) => (Result.ret (some (Object.Bool true)), w)))
        (some (Object.ClassInstance (Class.mk "A" [Method.mk "__eq__" ["other"] 5] none) []))
        (some (Object.ClassInstance (Class.mk "A" [Method.mk "__eq__" ["other"] 5] none) []))
        ((), []) = (Result.ret true, ((), [] ++ [(5, cl)])) :=
  match (instance_comparison_dispatch
    (fun _ _ (w : Unit) => (Result.ret (some (Object.Bool true)), w))
    (Class.mk "A" [Method.mk "__eq__" ["other"] 5] none) []
    (Object.ClassInstance (Class.mk "A" [Method.mk "__eq__" ["other"] 5] none) []) ()
    []).1 (Method.mk "__eq__" ["other"] 5) "other" rfl rfl with
  | ⟨cl, h1, h2, _, _, h5, _⟩ => ⟨cl, h1, h2 (by decide), h5 true () rfl⟩

/-- Counterexample to C13 as stated: the class declares `__eq__` with the
single formal parameter `self`.  `Equal(lhs, Number(1))` executes the body
once, on a closure in which `self` is `Number(1)`, the right operand, and not
the instance `lhs`. -/
theorem eq_parameter_named_self :
    Class.GetMethod (Class.mk "A" [Method.mk "__eq__" ["self"] 3] none) "__eq__" =
      some (Method.mk "__eq__" ["self"] 3) ∧
    Equal (traced (fun _ _ (w : Unit) => (Result.ret (some (Object.Bool true)), w)))
      (some (Object.ClassInstance (Class.mk "A" [Method.mk "__eq__" ["self"] 3] none) []))
      (some (Object.Number 1)) ((), []) =
      (Result.ret true, ((), [(3, [("self", some (Object.Number 1))])])) ∧
    Closure.get [("self", some (Object.Number 1))] "self" = some (some (Object.Number 1)) ∧
    Closure.get [("self", some (Object.Number 1))] "self" ≠
      some (some (Object.ClassInstance
        (Class.mk "A" [Method.mk "__eq__" ["self"] 3] none) [])) :=
  ⟨rfl, rfl, rfl, fun h => by cases h⟩


/-! ## Comparisons of primitive values -/

theorem Equal_Number {W : Type} (exec : Executor W) (a b : Int) (w : W) :
    Equal exec (some (Object.Number a)) (some (Object.Number b)) w =
      (Result.ret (decide (a = b)), w) := by
  show (Result.ret (numberEq a b), w) = _
  unfold numberEq
  by_cases h : a = b
  · subst h; simp
  · rw [decide_eq_false h, beq_eq_false_iff_ne.mpr h]

theorem Equal_String {W : Type} (exec : Executor W) (a b : String) (w : W) :
    Equal exec (some (Object.String a)) (some (Object.String b)) w =
      (Result.ret (decide (a = b)), w) := by
  show (Result.ret (stringEq a b), w) = _
  unfold stringEq
  by_cases h : a = b
  · subst h; simp
  · rw [decide_eq_false h, beq_eq_false_iff_ne.mpr h]

theorem Equal_Bool {W : Type} (exec : Executor W) (a b : Bool) (w : W) :
    Equal exec (some (Object.Bool a)) (some (Object.Bool b)) w =
      (Result.ret (decide (a = b)), w) := by
  show (Result.ret (boolEq a b), w) = _
  cases a <;> cases b <;> rfl

theorem Less_Number {W : Type} (exec : Executor W) (a b : Int) (w : W) :
    Less exec (some (Object.Number a)) (some (Object.Number b)) w =
      (Result.ret (decide (a < b)), w) := rfl

theorem Less_String {W : Type} (exec : Executor W) (a b : String) (w : W) :
    Less exec (some (Object.String a)) (some (Object.String b)) w =
      (Result.ret (decide (a < b)), w) := rfl

theorem Less_Bool {W : Type} (exec : Executor W) (a b : Bool) (w : W) :
    Less exec (some (Object.Bool a)) (some (Object.Bool b)) w =
      (Result.ret (decide (a = false ∧ b = true)), w) := by
  show (Result.ret (boolLt a b), w) = _
  cases a <;> cases b <;> rfl

/-- C12: for primitive values (each a `Number`, a `String` or a `Bool`) of the
same variant `Equal` returns the equality of the payloads, so `Equal(x, x)` is
true, and `Less` returns payload less-than (integer order, lexicographic
string order, `false < true`); for primitive values of different variants
both throw a comparison error: there is no coercion. -/
theorem primitive_comparisons {W : Type} (exec : Executor W) (w : W) :
    (∀ a b : Int,
      Equal exec (some (Object.Number a)) (some (Object.Number b)) w =
        (Result.ret (decide (a = b)), w) ∧
      Less exec (some (Object.Number a)) (some (Object.Number b)) w =
        (Result.ret (decide (a < b)), w)) ∧
    (∀ a b : String,
      Equal exec (some (Object.String a)) (some (Object.String b)) w =
        (Result.ret (decide (a = b)), w) ∧
      Less exec (some (Object.String a)) (some (Object.String b)) w =
        (Result.ret (decide (a < b)), w)) ∧
    (∀ a b : Bool,
      Equal exec (some (Object.Bool a)) (some (Object.Bool b)) w =
        (Result.ret (decide (a = b)), w) ∧
      Less exec (some (Object.Bool a)) (some (Object.Bool b)) w =
        (Result.ret (decide (a = false ∧ b = true)), w)) ∧
    (∀ x : Object, primitive x = true → Equal exec (some x) (some x) w = (Result.ret true, w)) ∧
    (∀ x y : Object, primitive x = true → primitive y = true → variant x ≠ variant y →
      Equal exec (some x) (some y) w =
        (Result.throw "Cannot compare objects for equality in general", w) ∧
      Less exec (some x) (some y) w = (Result.throw "Cannot compare objects for less", w)) := by
  refine ⟨fun a b => ⟨Equal_Number exec a b w, Less_Number exec a b w⟩,
    fun a b => ⟨Equal_String exec a b w, Less_String exec a b w⟩,
    fun a b => ⟨Equal_Bool exec a b w, Less_Bool exec a b w⟩, ?_, ?_⟩
  · intro x hx
    cases x with
    | Number a => rw [Equal_Number]; simp
    | String a => rw [Equal_String]; simp
    | Bool a => rw [Equal_Bool]; simp
    | Class c => cases hx
    | ClassInstance c f => cases hx
  · intro x y hx hy hv
    cases x <;> cases y <;> first
      | exact ⟨rfl, rfl⟩
      | exact absurd rfl hv
      | exact absurd hx Bool.false_ne_true

/-- Witness for C12: `Equal(Number(3), String("3"))` and the same for `Less`
throw. -/
theorem primitive_comparisons_witness :
    Equal (fun _ _ (w : Unit) => (Result.ret none, w)) (some (Object.Number 3))
        (some (Object.String "3")) () =
      (Result.throw "Cannot compare objects for equality in general", ()) ∧
    Less (fun _ _ (w : Unit) => (Result.ret none, w)) (some (Object.Number 3))
        (some (Object.String "3")) () =
      (Result.throw "Cannot compare objects for less", ()) :=
  (primitive_comparisons (fun _ _ (w : Unit) => (Result.ret none, w)) ()).2.2.2.2
    (Object.Number 3) (Object.String "3") rfl rfl (by decide)


/-! ## Derived comparisons -/

theorem NotEqual_ret {W : Type} (exec : Executor W) (a b : ObjectHolder) (w w1 : W) (e : Bool)
    (h : Equal exec a b w = (Result.ret e, w1)) :
    NotEqual exec a b w = (Result.ret (!e), w1) := by
  unfold NotEqual; rw [h]

theorem GreaterOrEqual_ret {W : Type} (exec : Executor W) (a b : ObjectHolder) (w w1 : W)
    (l : Bool) (h : Less exec a b w = (Result.ret l, w1)) :
    GreaterOrEqual exec a b w = (Result.ret (!l), w1) := by
  unfold GreaterOrEqual; rw [h]

theorem Greater_of_less {W : Type} (exec : Executor W) (a b : ObjectHolder) (w w1 : W)
    (h : Less exec a b w = (Result.ret true, w1)) :
    Greater exec a b w = (Result.ret false, w1) := by
  unfold Greater; rw [h]

theorem Greater_of_not_less {W : Type} (exec : Executor W) (a b : ObjectHolder) (w w1 w2 : W)
    (e : Bool) (h : Less exec a b w = (Result.ret false, w1))
    (he : Equal exec a b w1 = (Result.ret e, w2)) :
    Greater exec a b w = (Result.ret (!e), w2) := by
  unfold Greater; rw [h]; simp only []; rw [he]

theorem LessOrEqual_ret {W : Type} (exec : Executor W) (a b : ObjectHolder) (w w1 : W)
    (g : Bool) (h : Greater exec a b w = (Result.ret g, w1)) :
    LessOrEqual exec a b w = (Result.ret (!g), w1) := by
  unfold LessOrEqual; rw [h]

theorem NotEqual_throw {W : Type} (exec : Executor W) (a b : ObjectHolder) (w w1 : W)
    (what : String) (h : Equal exec a b w = (Result.throw what, w1)) :
    NotEqual exec a b w = (Result.throw "Cannot compare objects for NotEqual", w1) := by
  unfold NotEqual; rw [h]

theorem GreaterOrEqual_throw {W : Type} (exec : Executor W) (a b : ObjectHolder) (w w1 : W)
    (what : String) (h : Less exec a b w = (Result.throw what, w1)) :
    GreaterOrEqual exec a b w = (Result.throw "Cannot compare objects for GreaterOrEqual", w1) := by
  unfold GreaterOrEqual; rw [h]

theorem Greater_of_less_throw {W : Type} (exec : Executor W) (a b : ObjectHolder) (w w1 : W)
    (what : String) (h : Less exec a b w = (Result.throw what, w1)) :
    Greater exec a b w = (Result.throw "Cannot compare objects for Greater", w1) := by
  unfold Greater; rw [h]

theorem Greater_of_equal_throw {W : Type} (exec : Executor W) (a b : ObjectHolder)
    (w w1 w2 : W) (what : String) (h : Less exec a b w = (Result.ret false, w1))
    (he : Equal exec a b w1 = (Result.throw what, w2)) :
    Greater exec a b w = (Result.throw "Cannot compare objects for Greater", w2) := by
  unfold Greater; rw [h]; simp only []; rw [he]

theorem LessOrEqual_throw {W : Type} (exec : Executor W) (a b : ObjectHolder) (w w1 : W)
    (what : String) (h : Greater exec a b w = (Result.throw what, w1)) :
    LessOrEqual exec a b w = (Result.throw "Cannot compare objects for LessOrEqual", w1) := by
  unfold LessOrEqual; rw [h]

/-- When `Less` returned true or threw, `Greater` ends in the state that `Less`
left: `Equal` is not evaluated. -/
theorem Greater_state_of_less {W : Type} (exec : Executor W) (a b : ObjectHolder) (w : W)
    (h : (Less exec a b w).1 = Result.ret true ∨ (Less exec a b w).1.isThrow = true) :
    (Greater exec a b w).2 = (Less exec a b w).2 := by
  unfold Greater
  rcases hl : Less exec a b w with ⟨r, w1⟩
  rw [hl] at h
  cases r with
  | ret l =>
    cases l with
    | true => rfl
    | false =>
      rcases h with h | h
      · cases h
      · cases h
  | throw what => rfl
  | undefined => rfl

theorem NotEqual_isThrow {W : Type} (exec : Executor W) (a b : ObjectHolder) (w : W) :
    (NotEqual exec a b w).1.isThrow = (Equal exec a b w).1.isThrow := by
  unfold NotEqual
  rcases h : Equal exec a b w with ⟨r, w1⟩
  cases r <;> rfl

theorem GreaterOrEqual_isThrow {W : Type} (exec : Executor W) (a b : ObjectHolder) (w : W) :
    (GreaterOrEqual exec a b w).1.isThrow = (Less exec a b w).1.isThrow := by
  unfold GreaterOrEqual
  rcases h : Less exec a b w with ⟨r, w1⟩
  cases r <;> rfl

theorem LessOrEqual_isThrow {W : Type} (exec : Executor W) (a b : ObjectHolder) (w : W) :
    (LessOrEqual exec a b w).1.isThrow = (Greater exec a b w).1.isThrow := by
  unfold LessOrEqual
  rcases h : Greater exec a b w with ⟨r, w1⟩
  cases r <;> rfl

theorem Greater_isThrow {W : Type} (exec : Executor W) (a b : ObjectHolder) (w : W) :
    (Greater exec a b w).1.isThrow =
      ((Less exec a b w).1.isThrow ||
        (decide ((Less exec a b w).1 = Result.ret false) &&
          (Equal exec a b (Less exec a b w).2).1.isThrow)) := by
  unfold Greater
  rcases h : Less exec a b w with ⟨r, w1⟩
  cases r with
  | ret l =>
    cases l with
    | true => rfl
    | false =>
      simp only []
      rcases he : Equal exec a b w1 with ⟨r2, w2⟩
      cases r2 <;> rfl
  | throw what => rfl
  | undefined => rfl

/-- C14: the derived comparisons agree with their formulas for all operands.
`NotEqual` is `!Equal` and `GreaterOrEqual` is `!Less`; `Greater` is false when
`Less` returned true and `!Equal` (evaluated after `Less`) when `Less` returned
false; `LessOrEqual` is `!Greater`.  When a comparison that is consulted
throws, whatever its error, the derived comparison throws its own comparison
error (`Cannot compare objects for NotEqual`, `... for GreaterOrEqual`,
`... for Greater`, `... for LessOrEqual`) in the state that the failed
comparison left, and it throws in no other case.  `Equal` is consulted by
`Greater` only when `Less` returned false: when `Less` returned true or threw,
the state and the record of executed bodies after `Greater` are those after
`Less`; so for an instance without `__lt__` of arity 1 `Greater` throws with
nothing executed, whatever `__eq__` its class has.  In particular, for an
instance whose `__lt__(self, other)` returns `Bool(true)`, `Less(x, x)` is true
and `Greater(x, x)` returns false without failing. -/
theorem derived_comparisons {W : Type} (exec : Executor W) (a b : ObjectHolder) (w : W) :
    (∀ (inst_class_ : Class) (inst_fields_ : Closure) (m : Method) (p : String) (w1 : W),
      a = some (Object.ClassInstance inst_class_ inst_fields_) →
      b = some (Object.ClassInstance inst_class_ inst_fields_) →
      inst_class_.GetMethod "__lt__" = some m → m.formal_params = [p] →
      exec m.body (Closure.set [("self", a)] p b) w = (Result.ret (some (Object.Bool true)), w1) →
      Less exec a b w = (Result.ret true, w1) ∧ Greater exec a b w = (Result.ret false, w1)) ∧
    (∀ e w1, Equal exec a b w = (Result.ret e, w1) →
      NotEqual exec a b w = (Result.ret (!e), w1)) ∧
    (∀ what w1, Equal exec a b w = (Result.throw what, w1) →
      NotEqual exec a b w = (Result.throw "Cannot compare objects for NotEqual", w1)) ∧
    (∀ l w1, Less exec a b w = (Result.ret l, w1) →
      GreaterOrEqual exec a b w = (Result.ret (!l), w1)) ∧
    (∀ what w1, Less exec a b w = (Result.throw what, w1) →
      GreaterOrEqual exec a b w =
        (Result.throw "Cannot compare objects for GreaterOrEqual", w1)) ∧
    (∀ w1, Less exec a b w = (Result.ret true, w1) →
      Greater exec a b w = (Result.ret false, w1)) ∧
    (∀ what w1, Less exec a b w = (Result.throw what, w1) →
      Greater exec a b w = (Result.throw "Cannot compare objects for Greater", w1)) ∧
    (∀ e w1 w2, Less exec a b w = (Result.ret false, w1) →
      Equal exec a b w1 = (Result.ret e, w2) → Greater exec a b w = (Result.ret (!e), w2)) ∧
    (∀ what w1 w2, Less exec a b w = (Result.ret false, w1) →
      Equal exec a b w1 = (Result.throw what, w2) →
      Greater exec a b w = (Result.throw "Cannot compare objects for Greater", w2)) ∧
    (∀ g w1, Greater exec a b w = (Result.ret g, w1) →
      LessOrEqual exec a b w = (Result.ret (!g), w1)) ∧
    (∀ what w1, Greater exec a b w = (Result.throw what, w1) →
      LessOrEqual exec a b w = (Result.throw "Cannot compare objects for LessOrEqual", w1)) ∧
    (NotEqual exec a b w).1.isThrow = (Equal exec a b w).1.isThrow ∧
    (GreaterOrEqual exec a b w).1.isThrow = (Less exec a b w).1.isThrow ∧
    (Greater exec a b w).1.isThrow =
      ((Less exec a b w).1.isThrow ||
        (decide ((Less exec a b w).1 = Result.ret false) &&
          (Equal exec a b (Less exec a b w).2).1.isThrow)) ∧
    (LessOrEqual exec a b w).1.isThrow = (Greater exec a b w).1.isThrow ∧
    (∀ tr : List (Nat × Closure),
      (Less (traced exec) a b (w, tr)).1 = Result.ret true ∨
        (Less (traced exec) a b (w, tr)).1.isThrow = true →
      (Greater (traced exec) a b (w, tr)).2 = (Less (traced exec) a b (w, tr)).2) ∧
    (∀ (inst_class_ : Class) (inst_fields_ : Closure) (r : Object) (tr : List (Nat × Closure)),
      a = some (Object.ClassInstance inst_class_ inst_fields_) → b = some r →
      HasMethod inst_class_ "__lt__" 1 = false →
      Greater (traced exec) a b (w, tr) =
        (Result.throw "Cannot compare objects for Greater", (w, tr))) := by
  refine ⟨?_, fun e w1 h => NotEqual_ret exec a b w w1 e h,
    fun what w1 h => NotEqual_throw exec a b w w1 what h,
    fun l w1 h => GreaterOrEqual_ret exec a b w w1 l h,
    fun what w1 h => GreaterOrEqual_throw exec a b w w1 what h,
    fun w1 h => Greater_of_less exec a b w w1 h,
    fun what w1 h => Greater_of_less_throw exec a b w w1 what h,
    fun e w1 w2 h he => Greater_of_not_less exec a b w w1 w2 e h he,
    fun what w1 w2 h he => Greater_of_equal_throw exec a b w w1 w2 what h he,
    fun g w1 h => LessOrEqual_ret exec a b w w1 g h,
    fun what w1 h => LessOrEqual_throw exec a b w w1 what h,
    NotEqual_isThrow exec a b w, GreaterOrEqual_isThrow exec a b w, Greater_isThrow exec a b w,
    LessOrEqual_isThrow exec a b w,
    fun tr h => Greater_state_of_less (traced exec) a b (w, tr) h, ?_⟩
  · intro inst_class_ inst_fields_ m p w1 ha hb hm hp hexec
    subst ha hb
    have hk : m.formal_params.length =
        [some (Object.ClassInstance inst_class_ inst_fields_)].length := by
      rw [hp]; rfl
    have hl : Less exec (some (Object.ClassInstance inst_class_ inst_fields_))
        (some (Object.ClassInstance inst_class_ inst_fields_)) w = (Result.ret true, w1) := by
      have h1 : HasMethod inst_class_ "__lt__" 1 = true := (HasMethod_iff _ _ _).mpr ⟨m, hm, hk⟩
      rw [Less_instance, if_pos h1, Call_found exec _ _ _ _ _ m hm hk, hp]
      show (boolPayload (exec m.body (Closure.set _ p _) w).1,
        (exec m.body (Closure.set _ p _) w).2) = _
      rw [hexec]
      rfl
    exact ⟨hl, Greater_of_less exec _ _ w w1 hl⟩
  · intro inst_class_ inst_fields_ r tr ha hb hno
    subst ha hb
    have hl : Less (traced exec) (some (Object.ClassInstance inst_class_ inst_fields_)) (some r)
        (w, tr) = (Result.throw "Cannot compare objects for less", (w, tr)) := by
      rw [Less_instance, hno]
      rfl
    exact Greater_of_less_throw (traced exec) _ _ (w, tr) (w, tr) _ hl

/-- Witness for C14: scenario 7 of the specification, a class `B` that
declares only `__lt__(self, other)` returning `Bool(true)`. -/
theorem derived_comparisons_witness :
    Less (fun _ _ (w : Unit) => (Result.ret (some (Object.Bool true)), w))
        (some (Object.ClassInstance (Class.mk "B" [Method.mk "__lt__" ["other"] 0] none) []))
        (some (Object.ClassInstance (Class.mk "B" [Method.mk "__lt__" ["other"] 0] none) []))
        () = (Result.ret true, ()) ∧
    Greater (fun _ _ (w : Unit) => (Result.ret (some (Object.Bool true)), w))
        (some (Object.ClassInstance (Class.mk "B" [Method.mk "__lt__" ["other"] 0] none) []))
        (some (Object.ClassInstance (Class.mk "B" [Method.mk "__lt__" ["other"] 0] none) []))
        () = (Result.ret false, ()) :=
  (derived_comparisons (fun _ _ (w : Unit) => (Result.ret (some (Object.Bool true)), w))
    (some (Object.ClassInstance (Class.mk "B" [Method.mk "__lt__" ["other"] 0] none) []))
    (some (Object.ClassInstance (Class.mk "B" [Method.mk "__lt__" ["other"] 0] none) []))
    ()).1 (Class.mk "B" [Method.mk "__lt__" ["other"] 0] none) []
    (Method.mk "__lt__" ["other"] 0) "other" () rfl rfl rfl rfl rfl


/-! ## The order of primitive values -/

theorem total_of_facts {W : Type} (exec : Executor W) (w : W) (x y : ObjectHolder)
    (l e l1 : Bool) (hl : Less exec x y w = (Result.ret l, w))
    (he : Equal exec x y w = (Result.ret e, w)) (hl1 : Less exec y x w = (Result.ret l1, w))
    (he1 : Equal exec y x w = (Result.ret e, w))
    (hT : (l = true ∧ e = false ∧ l1 = false) ∨ (l = false ∧ e = true ∧ l1 = false) ∨
      (l = false ∧ e = false ∧ l1 = true)) :
    ∃ l e g : Bool,
      Less exec x y w = (Result.ret l, w) ∧ Equal exec x y w = (Result.ret e, w) ∧
      Greater exec x y w = (Result.ret g, w) ∧ NotEqual exec x y w = (Result.ret (!e), w) ∧
      LessOrEqual exec x y w = (Result.ret (l || e), w) ∧
      GreaterOrEqual exec x y w = (Result.ret (!l), w) ∧
      ((l = true ∧ e = false ∧ g = false) ∨ (l = false ∧ e = true ∧ g = false) ∨
        (l = false ∧ e = false ∧ g = true)) ∧
      Greater exec x y w = Less exec y x w ∧
      GreaterOrEqual exec x y w = LessOrEqual exec y x w := by
  have hg : Greater exec x y w = (Result.ret l1, w) := by
    rcases hT with ⟨h1, h2, h3⟩ | ⟨h1, h2, h3⟩ | ⟨h1, h2, h3⟩
    · subst h1 h2 h3
      exact Greater_of_less exec x y w w hl
    · subst h1 h2 h3
      exact Greater_of_not_less exec x y w w w true hl he
    · subst h1 h2 h3
      exact Greater_of_not_less exec x y w w w false hl he
  have hg1 : Greater exec y x w = (Result.ret l, w) := by
    rcases hT with ⟨h1, h2, h3⟩ | ⟨h1, h2, h3⟩ | ⟨h1, h2, h3⟩
    · subst h1 h2 h3
      exact Greater_of_not_less exec y x w w w false hl1 he1
    · subst h1 h2 h3
      exact Greater_of_not_less exec y x w w w true hl1 he1
    · subst h1 h2 h3
      exact Greater_of_less exec y x w w hl1
  refine ⟨l, e, l1, hl, he, hg, NotEqual_ret exec x y w w e he, ?_,
    GreaterOrEqual_ret exec x y w w l hl, hT, ?_, ?_⟩
  · rw [LessOrEqual_ret exec x y w w l1 hg]
    rcases hT with ⟨h1, h2, h3⟩ | ⟨h1, h2, h3⟩ | ⟨h1, h2, h3⟩ <;> subst h1 h2 h3 <;> rfl
  · rw [hg, hl1]
  · rw [GreaterOrEqual_ret exec x y w w l hl, LessOrEqual_ret exec y x w w l hg1]

/-- C20: on primitive values of the same variant the six comparisons form a
consistent total order: none of them fails, exactly one of `Less`, `Equal`,
`Greater` is true, `Greater(a, b)` is `Less(b, a)`, `LessOrEqual(a, b)` is
`Less(a, b)` or `Equal(a, b)`, and `GreaterOrEqual(a, b)` is
`LessOrEqual(b, a)`. -/
theorem primitive_total_order {W : Type} (exec : Executor W) (w : W) (x y : Object)
    (hx : primitive x = true) (hy : primitive y = true) (hv : variant x = variant y) :
    ∃ l e g : Bool,
      Less exec (some x) (some y) w = (Result.ret l, w) ∧
      Equal exec (some x) (some y) w = (Result.ret e, w) ∧
      Greater exec (some x) (some y) w = (Result.ret g, w) ∧
      NotEqual exec (some x) (some y) w = (Result.ret (!e), w) ∧
      LessOrEqual exec (some x) (some y) w = (Result.ret (l || e), w) ∧
      GreaterOrEqual exec (some x) (some y) w = (Result.ret (!l), w) ∧
      ((l = true ∧ e = false ∧ g = false) ∨ (l = false ∧ e = true ∧ g = false) ∨
        (l = false ∧ e = false ∧ g = true)) ∧
      Greater exec (some x) (some y) w = Less exec (some y) (some x) w ∧
      GreaterOrEqual exec (some x) (some y) w = LessOrEqual exec (some y) (some x) w := by
  cases x with
  | Number a =>
    cases y with
    | Number b =>
      apply total_of_facts exec w _ _ _ _ _ (Less_Number exec a b w) (Equal_Number exec a b w)
        (Less_Number exec b a w)
      · rw [Equal_Number]
        by_cases h : a = b
        · subst h; rfl
        · rw [decide_eq_false h, decide_eq_false (fun h1 => h h1.symm)]
      · rcases lt_trichotomy a b with h | h | h
        · left
          exact ⟨decide_eq_true h, decide_eq_false (ne_of_lt h), decide_eq_false (lt_asymm h)⟩
        · right; left
          subst h
          exact ⟨decide_eq_false (lt_irrefl a), decide_eq_true rfl, decide_eq_false (lt_irrefl a)⟩
        · right; right
          exact ⟨decide_eq_false (lt_asymm h), decide_eq_false (ne_of_gt h), decide_eq_true h⟩
    | String b => cases hv
    | Bool b => cases hv
    | Class c => cases hy
    | ClassInstance c f => cases hy
  | String a =>
    cases y with
    | Number b => cases hv
    | String b =>
      apply total_of_facts exec w _ _ _ _ _ (Less_String exec a b w) (Equal_String exec a b w)
        (Less_String exec b a w)
      · rw [Equal_String]
        by_cases h : a = b
        · subst h; rfl
        · rw [decide_eq_false h, decide_eq_false (fun h1 => h h1.symm)]
      · rcases lt_trichotomy a b with h | h | h
        · left
          exact ⟨decide_eq_true h, decide_eq_false (ne_of_lt h), decide_eq_false (lt_asymm h)⟩
        · right; left
          subst h
          exact ⟨decide_eq_false (lt_irrefl a), decide_eq_true rfl, decide_eq_false (lt_irrefl a)⟩
        · right; right
          exact ⟨decide_eq_false (lt_asymm h), decide_eq_false (ne_of_gt h), decide_eq_true h⟩
    | Bool b => cases hv
    | Class c => cases hy
    | ClassInstance c f => cases hy
  | Bool a =>
    cases y with
    | Number b => cases hv
    | String b => cases hv
    | Bool b =>
      apply total_of_facts exec w _ _ _ _ _ (Less_Bool exec a b w) (Equal_Bool exec a b w)
        (Less_Bool exec b a w)
      · rw [Equal_Bool]
        cases a <;> cases b <;> rfl
      · cases a <;> cases b <;> decide
    | Class c => cases hy
    | ClassInstance c f => cases hy
  | Class c => cases hx
  | ClassInstance c f => cases hx

/-- Witness for C20: the strings `ab` and `b`. -/
theorem primitive_total_order_witness :
    ∃ l e g : Bool,
      Less (fun _ _ (w : Unit) => (Result.ret none, w)) (some (Object.String "ab"))
        (some (Object.String "b")) () = (Result.ret l, ()) ∧
      Equal (fun _ _ (w : Unit) => (Result.ret none, w)) (some (Object.String "ab"))
        (some (Object.String "b")) () = (Result.ret e, ()) ∧
      Greater (fun _ _ (w : Unit) => (Result.ret none, w)) (some (Object.String "ab"))
        (some (Object.String "b")) () = (Result.ret g, ()) ∧
      NotEqual (fun _ _ (w : Unit) => (Result.ret none, w)) (some (Object.String "ab"))
        (some (Object.String "b")) () = (Result.ret (!e), ()) ∧
      LessOrEqual (fun _ _ (w : Unit) => (Result.ret none, w)) (some (Object.String "ab"))
        (some (Object.String "b")) () = (Result.ret (l || e), ()) ∧
      GreaterOrEqual (fun _ _ (w : Unit) => (Result.ret none, w)) (some (Object.String "ab"))
        (some (Object.String "b")) () = (Result.ret (!l), ()) ∧
      ((l = true ∧ e = false ∧ g = false) ∨ (l = false ∧ e = true ∧ g = false) ∨
        (l = false ∧ e = false ∧ g = true)) ∧
      Greater (fun _ _ (w : Unit) => (Result.ret none, w)) (some (Object.String "ab"))
        (some (Object.String "b")) () =
        Less (fun _ _ (w : Unit) => (Result.ret none, w)) (some (Object.String "b"))
          (some (Object.String "ab")) () ∧
      GreaterOrEqual (fun _ _ (w : Unit) => (Result.ret none, w)) (some (Object.String "ab"))
        (some (Object.String "b")) () =
        LessOrEqual (fun _ _ (w : Unit) => (Result.ret none, w)) (some (Object.String "b"))
          (some (Object.String "ab")) () :=
  primitive_total_order (fun _ _ (w : Unit) => (Result.ret none, w)) ()
    (Object.String "ab") (Object.String "b") rfl rfl rfl


/-! ## The closures passed to method bodies -/

theorem bindParams_get_self (params : List String) :
    ∀ (args : List ObjectHolder) (c : Closure), "self" ∉ params →
      (bindParams params args c).get "self" = c.get "self" := by
  induction params with
  | nil => intro args c _; rfl
  | cons p ps ih =>
    intro args c h
    cases args with
    | nil => rfl
    | cons a as =>
      have hp : "self" ≠ p := fun hh => h (hh ▸ List.mem_cons_self _ _)
      have hps : "self" ∉ ps := fun hh => h (List.mem_cons_of_mem _ hh)
      show (bindParams ps as (c.set p a)).get "self" = _
      rw [ih as (c.set p a) hps, Closure.get_set_ne c p "self" a hp]

theorem Equal_Class {W : Type} (exec : Executor W) (v : Class) (r : Object) (w : W) (m : Method)
    (hm : v.GetMethod "__eq__" = some m) :
    Equal exec (some (Object.Class v)) (some r) w =
      (boolPayload (exec m.body [("__eq__", some r)] w).1,
        (exec m.body [("__eq__", some r)] w).2) := by
  show (match v.GetMethod "__eq__" with
    | some m => (boolPayload (exec m.body [("__eq__", some r)] w).1,
        (exec m.body [("__eq__", some r)] w).2)
    | none => (Result.throw "Cannot compare objects for equality in general", w)) = _
  rw [hm]

theorem Less_Class {W : Type} (exec : Executor W) (v : Class) (r : Object) (w : W) (m : Method)
    (hm : v.GetMethod "__lt__" = some m) :
    Less exec (some (Object.Class v)) (some r) w =
      (boolPayload (exec m.body [("__lt__", some r)] w).1,
        (exec m.body [("__lt__", some r)] w).2) := by
  show (match v.GetMethod "__lt__" with
    | some m => (boolPayload (exec m.body [("__lt__", some r)] w).1,
        (exec m.body [("__lt__", some r)] w).2)
    | none => (Result.throw "Cannot compare objects for less", w)) = _
  rw [hm]

/-- C17, as amended: `self` is bound to the receiving instance in the closure
of every method body that `ClassInstance::Call` executes for a method none of
whose formal parameters is named `self` (hence in the dispatch of `Equal` and
`Less` to `__eq__` and `__lt__` of an instance), and in the closure of the
body of `__str__` that `ClassInstance::Print` executes.  The dispatch of
`Equal` and `Less` on a class value executes the body of `__eq__`, of `__lt__`,
on a closure whose only binding is `__eq__`, `__lt__`, to the right operand:
there is no receiving instance and no `self`. -/
theorem self_bound_in_method_closures {W : Type} (exec : Executor W) (inst_class_ : Class)
    (inst_fields_ : Closure) (w : W) (tr : List (Nat × Closure)) :
    (∀ (method : String) (args : List ObjectHolder) (m : Method),
      inst_class_.GetMethod method = some m → m.formal_params.length = args.length →
      "self" ∉ m.formal_params →
      ∃ cl : Closure,
        (Call (traced exec) inst_class_ inst_fields_ method args (w, tr)).2.2 =
          tr ++ [(m.body, cl)] ∧
        cl.get "self" = some (some (Object.ClassInstance inst_class_ inst_fields_))) ∧
    (∀ m : Method, inst_class_.GetMethod "__str__" = some m → m.formal_params.length = 0 →
      ∃ cl : Closure,
        Print (traced exec) inst_class_ inst_fields_ (w, tr) =
          some ((exec m.body cl w).1, ((exec m.body cl w).2, tr ++ [(m.body, cl)])) ∧
        cl.get "self" = some (some (Object.ClassInstance inst_class_ inst_fields_))) ∧
    (∀ (r : Object) (m : Method) (p : String),
      inst_class_.GetMethod "__eq__" = some m → m.formal_params = [p] → p ≠ "self" →
      ∃ cl : Closure,
        (Equal (traced exec) (some (Object.ClassInstance inst_class_ inst_fields_)) (some r)
          (w, tr)).2.2 = tr ++ [(m.body, cl)] ∧
        cl.get "self" = some (some (Object.ClassInstance inst_class_ inst_fields_))) ∧
    (∀ (r : Object) (m : Method) (p : String),
      inst_class_.GetMethod "__lt__" = some m → m.formal_params = [p] → p ≠ "self" →
      ∃ cl : Closure,
        (Less (traced exec) (some (Object.ClassInstance inst_class_ inst_fields_)) (some r)
          (w, tr)).2.2 = tr ++ [(m.body, cl)] ∧
        cl.get "self" = some (some (Object.ClassInstance inst_class_ inst_fields_))) ∧
    (∀ (r : Object) (m : Method), inst_class_.GetMethod "__eq__" = some m →
      (Equal (traced exec) (some (Object.Class inst_class_)) (some r) (w, tr)).2.2 =
        tr ++ [(m.body, [("__eq__", some r)])]) ∧
    (∀ (r : Object) (m : Method), inst_class_.GetMethod "__lt__" = some m →
      (Less (traced exec) (some (Object.Class inst_class_)) (some r) (w, tr)).2.2 =
        tr ++ [(m.body, [("__lt__", some r)])]) := by
  have hcall : ∀ (method : String) (args : List ObjectHolder) (m : Method),
      inst_class_.GetMethod method = some m → m.formal_params.length = args.length →
      "self" ∉ m.formal_params →
      ∃ cl : Closure,
        (Call (traced exec) inst_class_ inst_fields_ method args (w, tr)).2.2 =
          tr ++ [(m.body, cl)] ∧
        cl.get "self" = some (some (Object.ClassInstance inst_class_ inst_fields_)) := by
    intro method args m hm hk hself
    refine ⟨bindParams m.formal_params args
      [("self", some (Object.ClassInstance inst_class_ inst_fields_))], ?_, ?_⟩
    · rw [Call_found (traced exec) _ _ _ _ _ m hm hk]
      rfl
    · rw [bindParams_get_self m.formal_params args _ hself]
      rfl
  refine ⟨hcall, ?_, ?_, ?_, ?_, ?_⟩
  · intro m hm hk
    refine ⟨[("self", some (Object.ClassInstance inst_class_ inst_fields_))], ?_, rfl⟩
    have h1 : HasMethod inst_class_ "__str__" 0 = true := (HasMethod_iff _ _ _).mpr ⟨m, hm, hk⟩
    unfold Print
    rw [h1, hm]
    rfl
  · intro r m p hm hp hne
    have hk : m.formal_params.length = [some r].length := by rw [hp]; rfl
    have hself : "self" ∉ m.formal_params := by
      rw [hp]
      intro hh
      exact hne (List.mem_singleton.mp hh).symm
    obtain ⟨cl, h1, h2⟩ := hcall "__eq__" [some r] m hm hk hself
    refine ⟨cl, ?_, h2⟩
    have h3 : HasMethod inst_class_ "__eq__" 1 = true := (HasMethod_iff _ _ _).mpr ⟨m, hm, hk⟩
    rw [Equal_instance, if_pos h3]
    exact h1
  · intro r m p hm hp hne
    have hk : m.formal_params.length = [some r].length := by rw [hp]; rfl
    have hself : "self" ∉ m.formal_params := by
      rw [hp]
      intro hh
      exact hne (List.mem_singleton.mp hh).symm
    obtain ⟨cl, h1, h2⟩ := hcall "__lt__" [some r] m hm hk hself
    refine ⟨cl, ?_, h2⟩
    have h3 : HasMethod inst_class_ "__lt__" 1 = true := (HasMethod_iff _ _ _).mpr ⟨m, hm, hk⟩
    rw [Less_instance, if_pos h3]
    exact h1
  · intro r m hm
    rw [Equal_Class (traced exec) inst_class_ r (w, tr) m hm]
    rfl
  · intro r m hm
    rw [Less_Class (traced exec) inst_class_ r (w, tr) m hm]
    rfl

/-- Witness for C17 as amended: `Call("m", [Number(1)])` on an instance of a
class that declares `m(x)` records one execution, on a closure that binds
`self` to the instance. -/
theorem self_bound_in_method_closures_witness :
    ∃ cl : Closure,
      (Call (traced (fun _ _ (w : Unit) => (Result.ret none, w)))
        (Class.mk "A" [Method.mk "m" ["x"] 4] none) [] "m" [some (Object.Number 1)]
        ((), [])).2.2 = [] ++ [(4, cl)] ∧
      cl.get "self" =
        some (some (Object.ClassInstance (Class.mk "A" [Method.mk "m" ["x"] 4] none) [])) :=
  (self_bound_in_method_closures (fun _ _ (w : Unit) => (Result.ret none, w))
    (Class.mk "A" [Method.mk "m" ["x"] 4] none) [] () []).1 "m" [some (Object.Number 1)]
    (Method.mk "m" ["x"] 4) rfl rfl (by decide)

/-- Counterexample to C17 as stated: `Equal` on a class value that declares
`__eq__` executes the body on a closure without `self`; and `Call` of a method
whose formal parameter is named `self` executes the body on a closure in
which `self` is the argument, not the receiver. -/
theorem closures_without_receiver :
    (Equal (traced (fun _ _ (w : Unit) => (Result.ret (some (Object.Bool true)), w)))
      (some (Object.Class (Class.mk "A" [Method.mk "__eq__" ["other"] 0] none)))
      (some (Object.Number 1)) ((), [])).2.2 = [(0, [("__eq__", some (Object.Number 1))])] ∧
    Closure.get [("__eq__", some (Object.Number 1))] "self" = none ∧
    (Call (traced (fun _ _ (w : Unit) => (Result.ret none, w)))
      (Class.mk "A" [Method.mk "m" ["self"] 1] none) [] "m" [some (Object.Number 1)]
      ((), [])).2.2 = [(1, [("self", some (Object.Number 1))])] ∧
    Closure.get [("self", some (Object.Number 1))] "self" = some (some (Object.Number 1)) :=
  ⟨rfl, rfl, rfl, rfl⟩

end runtime
